import Mathlib

/-!
Verification of the geometry-and-text assembly core of the ocr-obsidian
ingest pipeline.  Every definition below is a shallow embedding of the
corresponding Python function in `src/ingest/`, translated as directly as
possible: Python floats become `Rat`, Python ints become `Int` or `Nat`,
bounding-box 4-lists become the `Bbox` structure, `None`-able values become
`Option`, and functions that can raise become `Option`-returning.
-/

set_option maxRecDepth 4000

/-- A bounding box `[x1, y1, x2, y2]` as used throughout the source
(`left, top, right, bottom`). -/
structure Bbox where
  x1 : Int
  y1 : Int
  x2 : Int
  y2 : Int
deriving DecidableEq, Repr

/-- `_y_center` in `src/ingest/ocr.py`: `(bbox[1] + bbox[3]) / 2.0`.
Also the vertical-center expression used in `src/ingest/spans.py`. -/
def yCenter (b : Bbox) : Rat := ((b.y1 : Rat) + (b.y2 : Rat)) / 2

/-- Componentwise union step for two boxes (min left/top, max right/bottom). -/
def bboxUnion2 (a b : Bbox) : Bbox :=
  ⟨min a.x1 b.x1, min a.y1 b.y1, max a.x2 b.x2, max a.y2 b.y2⟩

/-- `_merge_bbox` in `src/ingest/ocr.py` and `_bbox_union` in
`src/ingest/spans.py` (identical bodies): componentwise min of lefts/tops and
max of rights/bottoms over a list of boxes.  Python raises on an empty list;
that case is never reached by the callers embedded here, and we return a
dummy box for totality. -/
def mergeBbox : List Bbox → Bbox
  | [] => ⟨0, 0, 0, 0⟩
  | b :: bs => bs.foldl bboxUnion2 b

/-- `_bbox_overlap` in `src/ingest/spans.py`: area of the intersection of two
boxes, `0` when they do not overlap. -/
def bboxOverlap (a b : Bbox) : Int :=
  let x1 := max a.x1 b.x1
  let y1 := max a.y1 b.y1
  let x2 := min a.x2 b.x2
  let y2 := min a.y2 b.y2
  if x2 ≤ x1 ∨ y2 ≤ y1 then 0 else (x2 - x1) * (y2 - y1)

/-! ## QA sweep (`src/ingest/sweep.py`) -/

/-- `GARBAGE_CHARS` in `src/ingest/sweep.py`: the character set
`|`, `\x7b`, `\x7d`, `[`, `]`, `<`, `>`, `_`, `~`, `^`. -/
def GARBAGE_CHARS : List Char := ['|', '\x7b', '\x7d', '[', ']', '<', '>', '_', '~', '^']

/-- `SweepThresholds` dataclass in `src/ingest/sweep.py`. -/
structure SweepThresholds where
  fail_alpha_min : Rat := 65 / 100
  fail_conf_min : Rat := 65
  fail_garbage_max : Rat := 8 / 100
  warn_line_max : Int := 25
  warn_char_max : Int := 2000
  warn_pipe_max : Rat := 2 / 100
deriving DecidableEq, Repr

/-- Round a rational to the nearest integer, ties to even — the semantics of
Python's `round` on exactly representable values. -/
def roundHalfEven (q : Rat) : Int :=
  let f := ⌊q⌋
  let r := q - (f : Rat)
  if r < 1 / 2 then f
  else if 1 / 2 < r then f + 1
  else if f % 2 = 0 then f else f + 1

/-- `round(x, 6)` from `compute_metrics`. -/
def round6 (q : Rat) : Rat := ((roundHalfEven (q * 1000000) : Rat)) / 1000000

/-- `round(x, 3)` from `compute_metrics`. -/
def round3 (q : Rat) : Rat := ((roundHalfEven (q * 1000) : Rat)) / 1000

/-- The metrics dict produced by `compute_metrics` in `src/ingest/sweep.py`. -/
structure Metrics where
  char_count : Nat
  line_count : Int
  avg_word_conf : Option Rat
  alpha_ratio : Rat
  garbage_ratio : Rat
  pipe_ratio : Rat
deriving DecidableEq, Repr

/-- `compute_metrics` in `src/ingest/sweep.py`.  `ch.isspace()` is modelled by
`Char.isWhitespace` and `ch.isalpha()` by `Char.isAlpha` (they agree on the
ASCII range that the pipeline's OCR text uses).  Note the source sets
`"char_count": len(text)` — the full length of `text`, not the
non-whitespace count. -/
def compute_metrics (text : String) (avg_word_conf : Option Rat) (line_count : Int) : Metrics :=
  let non_space_chars := text.data.filter (fun ch => ¬ ch.isWhitespace)
  let non_space_count := non_space_chars.length
  let alpha_count := (non_space_chars.filter (fun ch => ch.isAlpha)).length
  let garbage_count := (non_space_chars.filter (fun ch => ch ∈ GARBAGE_CHARS)).length
  let pipe_count := (non_space_chars.filter (fun ch => ch = '|')).length
  let alpha_ratio : Rat := if non_space_count = 0 then 0 else (alpha_count : Rat) / non_space_count
  let garbage_ratio : Rat := if non_space_count = 0 then 0 else (garbage_count : Rat) / non_space_count
  let pipe_ratio : Rat := if non_space_count = 0 then 0 else (pipe_count : Rat) / non_space_count
  { char_count := text.length
    line_count := line_count
    avg_word_conf := avg_word_conf.map round3
    alpha_ratio := round6 alpha_ratio
    garbage_ratio := round6 garbage_ratio
    pipe_ratio := round6 pipe_ratio }

/-- The verdict strings `"PASS"`, `"WARN"`, `"FAIL"`. -/
inductive Verdict where
  | PASS : Verdict
  | WARN : Verdict
  | FAIL : Verdict
deriving DecidableEq, Repr

/-- The reason messages appended by `decide_verdict` and `run_sweep`,
abstracted to which check fired (the source interpolates the offending
numbers into the message text). -/
inductive ReasonTag where
  | alpha_ratio : ReasonTag
  | avg_word_conf : ReasonTag
  | garbage_ratio : ReasonTag
  | line_count : ReasonTag
  | char_count : ReasonTag
  | pipe_ratio : ReasonTag
  | missing_canonical : ReasonTag
deriving DecidableEq, Repr

/-- The `fail_reasons` local of `decide_verdict` in `src/ingest/sweep.py`:
one entry per fail check that fired, in source order. -/
def sweep_fail_reasons (metrics : Metrics) (thresholds : SweepThresholds) : List ReasonTag :=
  (if metrics.alpha_ratio < thresholds.fail_alpha_min then [ReasonTag.alpha_ratio] else []) ++
  (match metrics.avg_word_conf with
   | some c => if c < thresholds.fail_conf_min then [ReasonTag.avg_word_conf] else []
   | none => []) ++
  (if thresholds.fail_garbage_max < metrics.garbage_ratio then [ReasonTag.garbage_ratio] else [])

/-- The `warn_reasons` local of `decide_verdict` in `src/ingest/sweep.py`. -/
def sweep_warn_reasons (metrics : Metrics) (thresholds : SweepThresholds) : List ReasonTag :=
  (if thresholds.warn_line_max < metrics.line_count then [ReasonTag.line_count] else []) ++
  (if thresholds.warn_char_max < (metrics.char_count : Int) then [ReasonTag.char_count] else []) ++
  (if thresholds.warn_pipe_max < metrics.pipe_ratio then [ReasonTag.pipe_ratio] else [])

/-- `decide_verdict` in `src/ingest/sweep.py`: collect fail reasons, collect
warn reasons, then FAIL (fail reasons followed by warn reasons) if any fail
reason fired, else WARN (warn reasons) if any warn reason fired, else PASS
with no reasons. -/
def decide_verdict (metrics : Metrics) (thresholds : SweepThresholds) : Verdict × List ReasonTag :=
  if sweep_fail_reasons metrics thresholds ≠ [] then
    (Verdict.FAIL, sweep_fail_reasons metrics thresholds ++ sweep_warn_reasons metrics thresholds)
  else if sweep_warn_reasons metrics thresholds ≠ [] then
    (Verdict.WARN, sweep_warn_reasons metrics thresholds)
  else (Verdict.PASS, [])

/-- The FAIL condition as the spec states it: alpha ratio below the fail
floor, or average confidence present and below the fail floor, or garbage
ratio above the fail ceiling. -/
def sweepFailCond (metrics : Metrics) (thresholds : SweepThresholds) : Prop :=
  metrics.alpha_ratio < thresholds.fail_alpha_min ∨
  (∃ c, metrics.avg_word_conf = some c ∧ c < thresholds.fail_conf_min) ∨
  thresholds.fail_garbage_max < metrics.garbage_ratio

/-- The WARN condition as the spec states it: line count, character count or
pipe ratio above its warn ceiling. -/
def sweepWarnCond (metrics : Metrics) (thresholds : SweepThresholds) : Prop :=
  thresholds.warn_line_max < metrics.line_count ∨
  thresholds.warn_char_max < (metrics.char_count : Int) ∨
  thresholds.warn_pipe_max < metrics.pipe_ratio

instance decSweepFailCond (m : Metrics) (t : SweepThresholds) : Decidable (sweepFailCond m t) :=
  match hm : m.avg_word_conf with
  | some c =>
      decidable_of_iff
        (m.alpha_ratio < t.fail_alpha_min ∨ c < t.fail_conf_min ∨
          t.fail_garbage_max < m.garbage_ratio)
        (by simp [sweepFailCond, hm])
  | none =>
      decidable_of_iff
        (m.alpha_ratio < t.fail_alpha_min ∨ t.fail_garbage_max < m.garbage_ratio)
        (by simp [sweepFailCond, hm])

instance decSweepWarnCond (m : Metrics) (t : SweepThresholds) : Decidable (sweepWarnCond m t) := by
  unfold sweepWarnCond
  infer_instance

/-- A word entry of a canonical page line as consumed by the sweep
(`line["words"]`); `confidence` is `none` when the stored value is not a
number (the `isinstance` check in the source). -/
structure SweepLineWord where
  confidence : Option Rat
deriving DecidableEq, Repr

/-- A line of a canonical page record as consumed by the sweep. -/
structure SweepLine where
  line_id : String
  text : String
  words : List SweepLineWord
deriving DecidableEq, Repr

/-- The slice of a canonical page record consumed by the sweep. -/
structure SweepPage where
  lines : List SweepLine
deriving DecidableEq, Repr

/-- The dict comprehension `by_id = {line_id: line for line in lines}` —
for duplicate ids the last entry wins, hence the reversed search. -/
def findLineById (lines : List SweepLine) (lid : String) : Option SweepLine :=
  lines.reverse.find? (fun l => decide (l.line_id = lid))

/-- `extract_span_text` in `src/ingest/sweep.py`: join the non-empty texts of
the referenced lines with newlines and count the numeric word confidences
found along the way. -/
def extract_span_text (page : SweepPage) (line_ids : List String) : String × Nat :=
  let step := fun (acc : List String × Nat) (lid : String) =>
    match findLineById page.lines lid with
    | none => acc
    | some line =>
        ((if line.text ≠ "" then acc.1 ++ [line.text] else acc.1),
         acc.2 + (line.words.filter (fun w => w.confidence.isSome)).length)
  let acc := line_ids.foldl step ([], 0)
  (String.intercalate "\n" acc.1, acc.2)

/-- `_average_word_conf` in `src/ingest/sweep.py`. -/
def average_word_conf (page : SweepPage) (line_ids : List String) : Option Rat × Nat :=
  let step := fun (acc : List Rat) (lid : String) =>
    match findLineById page.lines lid with
    | none => acc
    | some line => acc ++ (line.words.filterMap (fun w => w.confidence))
  let confidences := line_ids.foldl step []
  if confidences = [] then (none, 0)
  else (some (confidences.sum / confidences.length), confidences.length)

/-- `_line_count` in `src/ingest/sweep.py`: how many of the span's line ids
exist on the canonical page. -/
def line_count_of (page : SweepPage) (line_ids : List String) : Int :=
  ((line_ids.filter (fun lid => page.lines.any (fun l => decide (l.line_id = lid)))).length : Int)

/-- The per-sidecar evaluation step of `run_sweep` in `src/ingest/sweep.py`
(lines 385–403): when the canonical page record for the span's book/page is
missing, text is empty, confidence absent and line count zero, an extra
"canonical page missing" reason is recorded, and after `decide_verdict` runs
the extra reason is prepended and the verdict forced to FAIL.  Returns
(verdict, reasons, metrics). -/
def evaluate_sidecar (page_record : Option SweepPage) (line_ids : List String)
    (thresholds : SweepThresholds) : Verdict × List ReasonTag × Metrics :=
  match page_record with
  | none =>
      let extra_reasons : List ReasonTag := [ReasonTag.missing_canonical]
      let metrics := compute_metrics "" none 0
      let vr := decide_verdict metrics thresholds
      (Verdict.FAIL, extra_reasons ++ vr.2, metrics)
  | some page =>
      let text := (extract_span_text page line_ids).1
      let avg := (average_word_conf page line_ids).1
      let lc := line_count_of page line_ids
      let metrics := compute_metrics text avg lc
      let vr := decide_verdict metrics thresholds
      (vr.1, vr.2, metrics)

/-! ## Printed-page mode latch (`src/ingest/page_numbers.py`) -/

/-- The `printed_page_kind` values. -/
inductive PageKind where
  | arabic : PageKind
  | roman : PageKind
deriving DecidableEq, Repr

/-- The per-book running mode of the printed-page detector. -/
inductive PageMode where
  | auto : PageMode
  | arabic : PageMode
deriving DecidableEq, Repr

/-- The result triple of `detect_printed_page`. -/
structure PrintedPageResult where
  printed_page : Option Int
  printed_page_text : Option String
  printed_page_kind : Option PageKind
deriving DecidableEq, Repr

/-- `apply_printed_page_mode` in `src/ingest/page_numbers.py`: when the
running mode is already arabic and the page detected a roman numeral, the
result is suppressed to all-none; when the page detected an arabic value at
least `arabic_switch_min`, the mode latches to arabic. -/
def apply_printed_page_mode (result : PrintedPageResult) (mode : PageMode)
    (arabic_switch_min : Int) : PrintedPageResult × PageMode :=
  let current_mode := if mode = PageMode.arabic then PageMode.arabic else PageMode.auto
  if current_mode = PageMode.arabic ∧ result.printed_page_kind = some PageKind.roman then
    (⟨none, none, none⟩, current_mode)
  else if result.printed_page_kind = some PageKind.arabic then
    match result.printed_page with
    | some v => if arabic_switch_min ≤ v then (result, PageMode.arabic) else (result, current_mode)
    | none => (result, current_mode)
  else (result, current_mode)

/-! ## Span assembler (`src/ingest/spans.py`) -/

/-- `_bbox_intersection` in `src/ingest/spans.py`: intersection area, overlap
width and overlap height of a line box and a trigger box (all zero when the
boxes do not overlap). -/
def bboxIntersection (line_bbox trigger_bbox : Bbox) : Int × Int × Int :=
  let x1 := max line_bbox.x1 trigger_bbox.x1
  let y1 := max line_bbox.y1 trigger_bbox.y1
  let x2 := min line_bbox.x2 trigger_bbox.x2
  let y2 := min line_bbox.y2 trigger_bbox.y2
  if x2 ≤ x1 ∨ y2 ≤ y1 then (0, 0, 0)
  else ((x2 - x1) * (y2 - y1), x2 - x1, y2 - y1)

/-- `_line_matches_trigger` in `src/ingest/spans.py`: the line matches the
trigger when the intersection is positive and either covers at least
`min_overlap_frac` of the line's own area, or is at least `min_x_overlap_px`
wide with positive height. -/
def lineMatchesTrigger (line_bbox trigger_bbox : Bbox)
    (min_overlap_frac : Rat) (min_x_overlap_px : Int) : Bool :=
  let r := bboxIntersection line_bbox trigger_bbox
  let intersection_area := r.1
  let overlap_width := r.2.1
  let overlap_height := r.2.2
  if intersection_area ≤ 0 then false
  else
    let line_area := max 1 ((line_bbox.x2 - line_bbox.x1) * (line_bbox.y2 - line_bbox.y1))
    if min_overlap_frac ≤ (intersection_area : Rat) / (line_area : Rat) then true
    else decide (min_x_overlap_px ≤ overlap_width ∧ 0 < overlap_height)

/-- Python's `min(xs, key=f)`: the first element attaining the minimum key,
`none` on an empty list (where Python raises `ValueError`). -/
def minByKey (f : α → Rat) : List α → Option α
  | [] => none
  | x :: xs => some (xs.foldl (fun best y => if f y < f best then y else best) x)

/-- The vertical-center distance key used twice in `_select_line_indexes`:
`abs(((lines[idx]["bbox"][1] + lines[idx]["bbox"][3]) / 2.0) - trigger_center)`.
Out-of-range indices (never produced) read a dummy box. -/
def lineDistKey (lines : List Bbox) (trigger_bbox : Bbox) (idx : Nat) : Rat :=
  |yCenter ((lines[idx]?).getD ⟨0, 0, 0, 0⟩) - yCenter trigger_bbox|

/-- `_select_line_indexes` in `src/ingest/spans.py`.  The page's lines enter
only through their bounding boxes.  Returns `none` exactly where the Python
raises (`min` over an empty sequence, possible only when `lines` is empty). -/
def selectLineIndexes (lines : List Bbox) (trigger_bbox : Bbox)
    (min_overlap_frac : Rat) (min_x_overlap_px : Int) (max_overlap_lines : Nat) :
    Option (List Nat) :=
  let overlaps := (lines.enum.filter
    (fun p => lineMatchesTrigger p.2 trigger_bbox min_overlap_frac min_x_overlap_px)).map
      (fun p => p.1)
  if overlaps ≠ [] then
    if max_overlap_lines < overlaps.length then
      (minByKey (lineDistKey lines trigger_bbox) overlaps).map (fun i => [i])
    else some overlaps
  else
    (minByKey (lineDistKey lines trigger_bbox) (List.range lines.length)).map (fun i => [i])

/-- A raw (pre-merge) span dict as built in `run_make_spans`:
`page_num`, `line_ids`, `trigger_bboxes`, `span_bbox`. -/
structure RawSpan where
  page_num : Nat
  line_ids : List String
  trigger_bboxes : List Bbox
  span_bbox : Bbox
deriving DecidableEq, Repr

/-- The absorption step of `_merge_raw_spans`: the existing entry keeps its
fields, concatenates the newcomer's trigger boxes and takes the union of the
two span boxes (`_bbox_union([existing, span])`). -/
def absorbSpan (t s : RawSpan) : RawSpan :=
  { t with trigger_bboxes := t.trigger_bboxes ++ s.trigger_bboxes,
           span_bbox := mergeBbox [t.span_bbox, s.span_bbox] }

/-- One iteration of the `for span in raw_spans` loop of `_merge_raw_spans`:
if the accumulator (an insertion-ordered dict keyed by the `line_ids` tuple)
already has the key, absorb into that entry in place, else append. -/
def insertRawSpan (acc : List RawSpan) (s : RawSpan) : List RawSpan :=
  if acc.any (fun t => decide (t.line_ids = s.line_ids)) then
    acc.map (fun t => if t.line_ids = s.line_ids then absorbSpan t s else t)
  else acc ++ [s]

/-- `_merge_raw_spans` in `src/ingest/spans.py`: fold the raw spans into an
insertion-ordered dict keyed by the exact `line_ids` tuple and return its
values. -/
def mergeRawSpans (raw_spans : List RawSpan) : List RawSpan :=
  raw_spans.foldl insertRawSpan []

/-- Reference description of what `_merge_raw_spans` computes: group the raw
spans by exactly equal `line_ids` lists, in order of first appearance, folding
each group into its first member with `absorbSpan`. -/
def canonicalMerge : List RawSpan → List RawSpan
  | [] => []
  | s :: rest =>
      (rest.filter (fun t => decide (t.line_ids = s.line_ids))).foldl absorbSpan s ::
        canonicalMerge (rest.filter (fun t => decide (t.line_ids ≠ s.line_ids)))
termination_by l => l.length
decreasing_by
  simp only [List.length_cons]
  exact Nat.lt_succ_of_le (List.length_filter_le _ _)

/-- Modelled from the spec's words for the `char_count` metric: "non-whitespace
character count" — the number of non-whitespace characters of the span text. -/
def specNonWhitespaceCount (text : String) : Nat :=
  (text.data.filter (fun ch => ¬ ch.isWhitespace)).length

/-! ## Line clusterer (`src/ingest/ocr.py`) -/

/-- An OCR word: text, bounding box and engine confidence. -/
structure OcrWord where
  text : String
  bbox : Bbox
  confidence : Rat
deriving DecidableEq, Repr

/-- `_y_center(word.bbox)`. -/
def wordYCenter (w : OcrWord) : Rat := yCenter w.bbox

/-- A clustered OCR line as produced by `_group_lines`. -/
structure OcrLine where
  line_id : String
  bbox : Bbox
  words : List OcrWord
  text : String
deriving DecidableEq, Repr

/-- The sort key of `sorted(words, key=lambda w: (_y_center(w.bbox),
w.bbox[0]))` as a total boolean comparison (lexicographic on vertical center,
then left edge). -/
def wordSortLE (a b : OcrWord) : Bool :=
  decide (wordYCenter a < wordYCenter b ∨
    (wordYCenter a = wordYCenter b ∧ a.bbox.x1 ≤ b.bbox.x1))

/-- An open cluster of `_group_lines`: the running mean vertical center and
the member words, in attachment order. -/
structure Cluster where
  center_y : Rat
  words : List OcrWord
deriving DecidableEq, Repr

/-- The recomputed running mean
`sum(_y_center(w.bbox) for w in cluster["words"]) / len(cluster["words"])`. -/
def clusterMean (ws : List OcrWord) : Rat := (ws.map wordYCenter).sum / ws.length

/-- The inner `for cluster in clusters` loop of `_group_lines` for one word:
attach to the first cluster whose running mean is within tolerance
(recomputing the mean), else append a fresh cluster. -/
def addToClusters (tol : Rat) : List Cluster → OcrWord → List Cluster
  | [], w => [⟨wordYCenter w, [w]⟩]
  | c :: cs, w =>
      if |wordYCenter w - c.center_y| ≤ tol then
        ⟨clusterMean (c.words ++ [w]), c.words ++ [w]⟩ :: cs
      else
        c :: addToClusters tol cs w

/-- The key of `clusters.sort(key=lambda c: c["center_y"])`. -/
def clusterSortLE (c d : Cluster) : Bool := decide (c.center_y ≤ d.center_y)

/-- The key of `sorted(cluster["words"], key=lambda w: w.bbox[0])`. -/
def wordLeftLE (a b : OcrWord) : Bool := decide (a.bbox.x1 ≤ b.bbox.x1)

/-- Build one `OcrLine` from a sorted cluster (the body of the
`for index, cluster in enumerate(clusters, start=1)` loop). -/
def mkLine (page_num idx : Nat) (c : Cluster) : OcrLine :=
  let cluster_words := c.words.mergeSort wordLeftLE
  { line_id := "p" ++ toString page_num ++ "_l" ++ toString idx
    bbox := mergeBbox (cluster_words.map (fun w => w.bbox))
    words := cluster_words
    text := String.intercalate " " (cluster_words.map (fun w => w.text)) }

/-- The enumeration loop over sorted clusters, 1-based. -/
def buildLines (page_num : Nat) : Nat → List Cluster → List OcrLine
  | _, [] => []
  | idx, c :: cs => mkLine page_num idx c :: buildLines page_num (idx + 1) cs

/-- `_group_lines` in `src/ingest/ocr.py`: sort words by (vertical center,
left edge), greedily cluster them by first-match against the running means,
sort the clusters by final mean, and emit the lines. -/
def group_lines (words : List OcrWord) (page_num : Nat) (y_tolerance_px : Int) : List OcrLine :=
  if words = [] then []
  else
    let sorted_words := words.mergeSort wordSortLE
    let clusters := sorted_words.foldl (addToClusters (y_tolerance_px : Rat)) []
    let sorted_clusters := clusters.mergeSort clusterSortLE
    buildLines page_num 1 sorted_clusters

/-- The member vertical centers of a cluster. -/
def wcs (c : Cluster) : List Rat := c.words.map wordYCenter

/-- Separation: every member center of `c` lies strictly below every member
center of `d`. -/
def SepC (c d : Cluster) : Prop := ∀ a ∈ wcs c, ∀ b ∈ wcs d, a < b

/-- Well-formedness of an open cluster: nonempty, the stored running mean is
the mean of the members, and the mean lies within tolerance below every
member center. -/
def GoodC (tol : Rat) (c : Cluster) : Prop :=
  c.words ≠ [] ∧ c.center_y = clusterMean c.words ∧ ∀ a ∈ wcs c, a - tol ≤ c.center_y

/-- Invariant of the clustering fold: all clusters well-formed and pairwise
separated; all remaining words sit at or above every member center, and
strictly more than the tolerance above the running mean of every cluster but
the last (so only the last open cluster can still accept words). -/
def ClustInv (tol : Rat) (cs : List Cluster) (rest : List OcrWord) : Prop :=
  (∀ c ∈ cs, GoodC tol c) ∧
  cs.Pairwise SepC ∧
  (∀ w ∈ rest, ∀ c ∈ cs, ∀ a ∈ wcs c, a ≤ wordYCenter w) ∧
  (∀ w ∈ rest, ∀ c ∈ cs.dropLast, c.center_y + tol < wordYCenter w)

/-! ## Printed-page detector: Roman numerals (`src/ingest/page_numbers.py`) -/

/-- `ROMAN_CHARS` in `src/ingest/page_numbers.py`. -/
def ROMAN_CHARS : List Char := ['i', 'v', 'x', 'l', 'c', 'd', 'm']

/-- `normalize_roman`: lowercase the token and keep only Roman-numeral
characters.  `str.lower` is modelled per character with `Char.toLower` (they
agree on the ASCII tokens the detector sees). -/
def normalize_roman (s : String) : String :=
  String.mk ((s.data.map Char.toLower).filter (fun ch => ch ∈ ROMAN_CHARS))

/-- `ROMAN_VALUES` in `src/ingest/page_numbers.py` (`0` for characters
outside the table, which normalized input never contains). -/
def ROMAN_VALUES : Char → Nat
  | 'i' => 1
  | 'v' => 5
  | 'x' => 10
  | 'l' => 50
  | 'c' => 100
  | 'd' => 500
  | 'm' => 1000
  | _ => 0

/-- `ROMAN_SUBTRACTIVES` in `src/ingest/page_numbers.py`, as ordered pairs. -/
def ROMAN_SUBTRACTIVES : List (Char × Char) :=
  [('i', 'v'), ('i', 'x'), ('x', 'l'), ('x', 'c'), ('c', 'd'), ('c', 'm')]

/-- The shape of one magnitude group of `ROMAN_STRICT_RE`, e.g. for the
hundreds group `(cm|cd|d?c{0,3})`: the subtractive pair with the next-higher
character (`cm`), the subtractive pair with the half character (`cd`), or an
optional half character followed by up to three unit characters. -/
inductive RomanGroupShape where
  | subHigh : RomanGroupShape
  | subMid : RomanGroupShape
  | plain : Bool → Fin 4 → RomanGroupShape
deriving DecidableEq, Repr, Fintype

/-- A full match of `ROMAN_STRICT_RE =
^m{0,4}(cm|cd|d?c{0,3})(xc|xl|l?x{0,3})(ix|iv|v?i{0,3})$`: the number of
leading `m`s and the shape of each magnitude group. -/
structure RomanStrictParse where
  mCount : Fin 5
  hundreds : RomanGroupShape
  tens : RomanGroupShape
  units : RomanGroupShape
deriving DecidableEq, Repr, Fintype

/-- The characters matched by one group shape (`lo`/`mid`/`hi` are e.g.
`c`/`d`/`m` for the hundreds group). -/
def renderGroup (lo mid hi : Char) : RomanGroupShape → List Char
  | RomanGroupShape.subHigh => [lo, hi]
  | RomanGroupShape.subMid => [lo, mid]
  | RomanGroupShape.plain d k => (if d then [mid] else []) ++ List.replicate k.val lo

/-- The full character sequence matched by a `ROMAN_STRICT_RE` parse. -/
def renderRoman (p : RomanStrictParse) : List Char :=
  List.replicate p.mCount.val 'm' ++ renderGroup 'c' 'd' 'm' p.hundreds ++
    renderGroup 'x' 'l' 'c' p.tens ++ renderGroup 'i' 'v' 'x' p.units

/-- Consume a run of copies of `c` from the front of the list, returning the
run length and the remainder. -/
def takeRun (c : Char) : List Char → Nat × List Char
  | [] => (0, [])
  | a :: rest =>
      if a = c then
        let r := takeRun c rest
        (r.1 + 1, r.2)
      else (0, a :: rest)

/-- Parse the `d?c{0,3}`-style alternative of a magnitude group (the `% 4`
in the stored run length is the identity, because runs of four or more fail
the `< 4` guard). -/
def parsePlain (lo mid : Char) (l : List Char) : Option (RomanGroupShape × List Char) :=
  let dl : Bool × List Char :=
    match l with
    | a :: rest => if a = mid then (true, rest) else (false, l)
    | [] => (false, l)
  let kr := takeRun lo dl.2
  if kr.1 < 4 then
    some (RomanGroupShape.plain dl.1 ⟨kr.1 % 4, Nat.mod_lt _ (by norm_num)⟩, kr.2)
  else none

/-- Parse one magnitude group `(lohi|lomid|mid?lo{0,3})`, e.g.
`(cm|cd|d?c{0,3})`.  The regex alternatives are tried in order with
backtracking; here the first-matching alternative is committed, which gives
the same language because a rejected `lohi`/`lomid` continuation leaves a
`hi`/`mid` character at the front that no later group of the anchored
pattern can consume. -/
def parseGroup (lo mid hi : Char) (l : List Char) : Option (RomanGroupShape × List Char) :=
  match l with
  | a :: b :: rest =>
      if a = lo ∧ b = hi then some (RomanGroupShape.subHigh, rest)
      else if a = lo ∧ b = mid then some (RomanGroupShape.subMid, rest)
      else parsePlain lo mid (a :: b :: rest)
  | _ => parsePlain lo mid l

/-- Full-match parser for `ROMAN_STRICT_RE` (anchored at both ends).  The
greedy `m{0,4}` run and the greedy in-group runs are committed, which again
gives the regex's language: leftover `m`/`lo` characters can never be
consumed by the later groups, whose characters are all different and
smaller. -/
def parseRomanStrict (l : List Char) : Option RomanStrictParse :=
  let mr := takeRun 'm' l
  if hm : mr.1 < 5 then
    match parseGroup 'c' 'd' 'm' mr.2 with
    | none => none
    | some (hs, l2) =>
      match parseGroup 'x' 'l' 'c' l2 with
      | none => none
      | some (ts, l3) =>
        match parseGroup 'i' 'v' 'x' l3 with
        | none => none
        | some (us, l4) =>
            if l4 = [] then some ⟨⟨mr.1, hm⟩, hs, ts, us⟩ else none
  else none

/-- `ROMAN_STRICT_RE.fullmatch(normalized)` succeeding. -/
def romanStrictMatch (s : String) : Bool := (parseRomanStrict s.data).isSome

/-- The value-accumulating `while` loop of `roman_to_int`: subtractive pairs
must be in `ROMAN_SUBTRACTIVES`, otherwise the function returns `None`. -/
def romanLoopVal : List Char → Option Nat
  | [] => some 0
  | [c] => some (ROMAN_VALUES c)
  | c :: d :: rest =>
      if ROMAN_VALUES c < ROMAN_VALUES d then
        if (c, d) ∈ ROMAN_SUBTRACTIVES then
          (romanLoopVal rest).map (fun t => (ROMAN_VALUES d - ROMAN_VALUES c) + t)
        else none
      else (romanLoopVal (d :: rest)).map (fun t => ROMAN_VALUES c + t)

/-- `roman_to_int` in `src/ingest/page_numbers.py`: normalize, reject the
empty string and strings outside the strict grammar, then decode. -/
def roman_to_int (s : String) : Option Nat :=
  let normalized := normalize_roman s
  if normalized = "" then none
  else if ¬ romanStrictMatch normalized then none
  else romanLoopVal normalized.data

/-- `is_plausible_roman` in `src/ingest/page_numbers.py`. -/
def is_plausible_roman (s : String) (min_len : Nat) (max_value : Nat) : Bool :=
  let normalized := normalize_roman s
  if normalized.length < max 1 min_len then false
  else
    match roman_to_int normalized with
    | none => false
    | some v => decide (v ≤ max_value)

/-- The number of subtractive pairs in a numeral: adjacent positions whose
left character has strictly smaller value than its right neighbour. -/
def subtractivePairCount : List Char → Nat
  | c :: d :: rest =>
      (if ROMAN_VALUES c < ROMAN_VALUES d then 1 else 0) + subtractivePairCount (d :: rest)
  | _ => 0

/-- Whether every subtractive pair of the numeral is one of the six standard
subtractive pairs. -/
def subtractivePairsStandard : List Char → Bool
  | c :: d :: rest =>
      (if ROMAN_VALUES c < ROMAN_VALUES d then decide ((c, d) ∈ ROMAN_SUBTRACTIVES) else true) &&
        subtractivePairsStandard (d :: rest)
  | _ => true

/-- The five stacked candidate line boxes of the vertical-stripe scenario
(`test_spans.py`). -/
def stackedLines : List Bbox :=
  [⟨100, 10, 500, 30⟩, ⟨100, 40, 500, 60⟩, ⟨100, 70, 500, 90⟩, ⟨100, 100, 500, 120⟩,
   ⟨100, 130, 500, 150⟩]

/-! ## Helper lemmas -/

theorem sweep_fail_reasons_ne_nil (m : Metrics) (t : SweepThresholds) :
    sweep_fail_reasons m t ≠ [] ↔ sweepFailCond m t := by
  unfold sweep_fail_reasons sweepFailCond
  rcases hm : m.avg_word_conf with _ | c
  · by_cases h1 : m.alpha_ratio < t.fail_alpha_min <;>
      by_cases h3 : t.fail_garbage_max < m.garbage_ratio <;>
        simp [h1, h3, hm]
  · by_cases h1 : m.alpha_ratio < t.fail_alpha_min <;>
      by_cases h2 : c < t.fail_conf_min <;>
        by_cases h3 : t.fail_garbage_max < m.garbage_ratio <;>
          simp [h1, h2, h3, hm]

theorem sweep_warn_reasons_ne_nil (m : Metrics) (t : SweepThresholds) :
    sweep_warn_reasons m t ≠ [] ↔ sweepWarnCond m t := by
  unfold sweep_warn_reasons sweepWarnCond
  by_cases h1 : t.warn_line_max < m.line_count <;>
    by_cases h2 : t.warn_char_max < (m.char_count : Int) <;>
      by_cases h3 : t.warn_pipe_max < m.pipe_ratio <;>
        simp [h1, h2, h3]

theorem decide_verdict_fst (m : Metrics) (t : SweepThresholds) :
    (decide_verdict m t).1 =
      if sweepFailCond m t then Verdict.FAIL
      else if sweepWarnCond m t then Verdict.WARN
      else Verdict.PASS := by
  by_cases hf : sweepFailCond m t <;> by_cases hw : sweepWarnCond m t <;>
    simp [decide_verdict, hf, hw, sweep_fail_reasons_ne_nil, sweep_warn_reasons_ne_nil]

theorem alpha_reason_mem (m : Metrics) (t : SweepThresholds)
    (h : m.alpha_ratio < t.fail_alpha_min) :
    ReasonTag.alpha_ratio ∈ (decide_verdict m t).2 := by
  have hf : sweep_fail_reasons m t ≠ [] :=
    (sweep_fail_reasons_ne_nil m t).2 (Or.inl h)
  simp [decide_verdict, hf, sweep_fail_reasons, h]

theorem conf_reason_mem (m : Metrics) (t : SweepThresholds) (c : Rat)
    (hm : m.avg_word_conf = some c) (hc : c < t.fail_conf_min) :
    ReasonTag.avg_word_conf ∈ (decide_verdict m t).2 := by
  have hf : sweep_fail_reasons m t ≠ [] :=
    (sweep_fail_reasons_ne_nil m t).2 (Or.inr (Or.inl ⟨c, hm, hc⟩))
  simp [decide_verdict, hf, sweep_fail_reasons, hm, hc]

theorem garbage_reason_mem (m : Metrics) (t : SweepThresholds)
    (h : t.fail_garbage_max < m.garbage_ratio) :
    ReasonTag.garbage_ratio ∈ (decide_verdict m t).2 := by
  have hf : sweep_fail_reasons m t ≠ [] :=
    (sweep_fail_reasons_ne_nil m t).2 (Or.inr (Or.inr h))
  simp [decide_verdict, hf, sweep_fail_reasons, h]

theorem apply_mode_arabic_step (r : PrintedPageResult) (amin : Int) :
    (apply_printed_page_mode r PageMode.arabic amin).2 = PageMode.arabic := by
  obtain ⟨pp, pt, pk⟩ := r
  rcases pk with _ | k
  · simp [apply_printed_page_mode]
  · cases k <;> rcases pp with _ | v <;>
      simp only [apply_printed_page_mode] <;> split_ifs <;> rfl

/-! ## Claim theorems -/

/-- C4: the QA verdict is FAIL iff the alpha ratio is below the fail floor,
or the average confidence is present and below the fail floor, or the garbage
ratio exceeds the fail ceiling (any one sufficient, every matching fail
reason collected); otherwise WARN iff line count, character count or pipe
ratio exceeds its warn ceiling; otherwise PASS. -/
theorem decide_verdict_matches_spec (m : Metrics) (t : SweepThresholds) :
    ((decide_verdict m t).1 = Verdict.FAIL ↔ sweepFailCond m t) ∧
    ((decide_verdict m t).1 = Verdict.WARN ↔ ¬ sweepFailCond m t ∧ sweepWarnCond m t) ∧
    ((decide_verdict m t).1 = Verdict.PASS ↔ ¬ sweepFailCond m t ∧ ¬ sweepWarnCond m t) ∧
    (m.alpha_ratio < t.fail_alpha_min → ReasonTag.alpha_ratio ∈ (decide_verdict m t).2) ∧
    (∀ c, m.avg_word_conf = some c → c < t.fail_conf_min →
      ReasonTag.avg_word_conf ∈ (decide_verdict m t).2) ∧
    (t.fail_garbage_max < m.garbage_ratio → ReasonTag.garbage_ratio ∈ (decide_verdict m t).2) := by
  refine ⟨?_, ?_, ?_, alpha_reason_mem m t, fun c hm hc => conf_reason_mem m t c hm hc,
    garbage_reason_mem m t⟩ <;>
    rw [decide_verdict_fst] <;>
      by_cases hf : sweepFailCond m t <;> by_cases hw : sweepWarnCond m t <;>
        simp [hf, hw]

/-- Witness for C4: a metrics record with average confidence 40 (as for the
spec's all-garbage FAIL example) fails under the default thresholds and cites
the average-confidence reason. -/
theorem decide_verdict_matches_spec_w :
    ((Metrics.mk 9 1 (some 40) 0 1 (1 / 9)).avg_word_conf = some 40 ∧
      (40 : Rat) < ({} : SweepThresholds).fail_conf_min) ∧
    ReasonTag.avg_word_conf ∈ (decide_verdict (Metrics.mk 9 1 (some 40) 0 1 (1 / 9)) {}).2 :=
  ⟨⟨rfl, by show (40 : Rat) < 65; norm_num⟩,
    (decide_verdict_matches_spec (Metrics.mk 9 1 (some 40) 0 1 (1 / 9)) {}).2.2.2.2.1
      40 rfl (by show (40 : Rat) < 65; norm_num)⟩

/-- C10: the reason list of the verdict decision is empty exactly when the
verdict is PASS. -/
theorem decide_verdict_reasons_empty_iff_pass (m : Metrics) (t : SweepThresholds) :
    (decide_verdict m t).2 = [] ↔ (decide_verdict m t).1 = Verdict.PASS := by
  rcases eq_or_ne (sweep_fail_reasons m t) [] with hf | hf
  · rcases eq_or_ne (sweep_warn_reasons m t) [] with hw | hw
    · simp [decide_verdict, hf, hw]
    · simp [decide_verdict, hf, hw]
  · simp [decide_verdict, hf, List.append_eq_nil]

/-- C3: (i) an arabic-latched book suppresses a roman detection to all-none;
(ii) an arabic value at or above the switch threshold latches the mode to
arabic; (iii) an arabic input mode always yields an arabic output mode, and
the latch never reverts to auto over any sequence of pages. -/
theorem apply_printed_page_mode_spec (r : PrintedPageResult) (m : PageMode) (amin : Int) :
    ((m = PageMode.arabic ∧ r.printed_page_kind = some PageKind.roman) →
      (apply_printed_page_mode r m amin).1 = ⟨none, none, none⟩) ∧
    (∀ v : Int, r.printed_page_kind = some PageKind.arabic → r.printed_page = some v →
      amin ≤ v → (apply_printed_page_mode r m amin).2 = PageMode.arabic) ∧
    (m = PageMode.arabic → (apply_printed_page_mode r m amin).2 = PageMode.arabic) ∧
    (∀ rs : List PrintedPageResult,
      rs.foldl (fun st result => (apply_printed_page_mode result st amin).2) PageMode.arabic =
        PageMode.arabic) := by
  refine ⟨?_, ?_, ?_, ?_⟩
  · rintro ⟨hm, hk⟩
    subst hm
    simp [apply_printed_page_mode, hk]
  · rintro v hk hv hge
    simp [apply_printed_page_mode, hk, hv, hge]
  · rintro hm
    subst hm
    exact apply_mode_arabic_step r amin
  · intro rs
    induction rs with
    | nil => rfl
    | cons hd tl ih => simpa [apply_mode_arabic_step] using ih

/-- Witness for C3: suppressing a roman detection on an arabic-latched book. -/
theorem apply_printed_page_mode_spec_w :
    (PageMode.arabic = PageMode.arabic ∧
      (PrintedPageResult.mk (some 4) (some "iv") (some PageKind.roman)).printed_page_kind =
        some PageKind.roman) ∧
    (apply_printed_page_mode
        (PrintedPageResult.mk (some 4) (some "iv") (some PageKind.roman))
        PageMode.arabic 10).1 = ⟨none, none, none⟩ :=
  ⟨⟨rfl, rfl⟩,
    (apply_printed_page_mode_spec
      (PrintedPageResult.mk (some 4) (some "iv") (some PageKind.roman))
      PageMode.arabic 10).1 ⟨rfl, rfl⟩⟩

/-- C5 counterexample: on the text `"a b"` the `char_count` metric is `3`
(the full length of the text), not the non-whitespace count `2` that the
claim states. -/
theorem compute_metrics_char_count_cex :
    (compute_metrics "a b" none 1).char_count = 3 ∧
    specNonWhitespaceCount "a b" = 2 ∧
    (compute_metrics "a b" none 1).char_count ≠ specNonWhitespaceCount "a b" := by
  refine ⟨by decide, by decide, by decide⟩

/-- C5 amended: the `char_count` metric equals the total number of characters
of the span text, whitespace (including the newlines joining lines) counted. -/
theorem compute_metrics_char_count_total (text : String) (avg : Option Rat) (lc : Int) :
    (compute_metrics text avg lc).char_count = text.length := rfl

/-- C8: a span whose book/page has no canonical page record gets verdict FAIL
with the missing-canonical-page reason recorded, for every threshold
configuration (the metric checks on the empty text cannot rescue it), and the
evaluation is total — no error is raised. -/
theorem run_sweep_missing_page_fails (line_ids : List String) (t : SweepThresholds) :
    (evaluate_sidecar none line_ids t).1 = Verdict.FAIL ∧
    ReasonTag.missing_canonical ∈ (evaluate_sidecar none line_ids t).2.1 := by
  constructor <;> simp [evaluate_sidecar]

theorem minByKey_ne_nil {α : Type} (f : α → Rat) (l : List α) (hl : l ≠ []) :
    ∃ a, minByKey f l = some a := by
  cases l with
  | nil => exact absurd rfl hl
  | cons x xs => exact ⟨_, rfl⟩

/-- C7: for every trigger box and non-empty line list, span-assembly line
selection returns at least one line index; and the thin vertical stripe
trigger of the five-stacked-lines scenario selects exactly the single
nearest line (index 3), not all five. -/
theorem selectLineIndexes_spec :
    (∀ (lines : List Bbox) (trigger : Bbox) (frac : Rat) (px : Int) (cap : Nat),
      lines ≠ [] →
      ∃ idxs, selectLineIndexes lines trigger frac px cap = some idxs ∧ 0 < idxs.length) ∧
    selectLineIndexes stackedLines ⟨0, 0, 12, 200⟩ (2 / 100) 40 8 = some [3] ∧
    (∀ j, j < 5 →
      lineDistKey stackedLines ⟨0, 0, 12, 200⟩ 3 ≤ lineDistKey stackedLines ⟨0, 0, 12, 200⟩ j) := by
  refine ⟨?_, ?_, ?_⟩
  · intro lines trigger frac px cap hne
    simp only [selectLineIndexes]
    rcases eq_or_ne ((lines.enum.filter
        (fun p => lineMatchesTrigger p.2 trigger frac px)).map (fun p => p.1)) [] with h | h
    · simp only [h, ne_eq, not_true_eq_false, if_false]
      obtain ⟨i, hi⟩ := minByKey_ne_nil (lineDistKey lines trigger) (List.range lines.length)
        (by simpa [List.range_eq_nil] using hne)
      exact ⟨[i], by simp [hi], by simp⟩
    · simp only [h, ne_eq, not_false_eq_true, if_true]
      by_cases hc : cap < ((lines.enum.filter
          (fun p => lineMatchesTrigger p.2 trigger frac px)).map (fun p => p.1)).length
      · simp only [hc, if_true]
        obtain ⟨i, hi⟩ := minByKey_ne_nil (lineDistKey lines trigger) _ h
        exact ⟨[i], by simp [hi], by simp⟩
      · simp only [hc, if_false]
        exact ⟨_, rfl, List.length_pos.2 h⟩
  · norm_num [selectLineIndexes, stackedLines, lineMatchesTrigger, bboxIntersection, minByKey,
      lineDistKey, yCenter, List.enum, List.enumFrom, List.filter, List.range, List.range.loop]
  · intro j hj
    interval_cases j <;> norm_num [lineDistKey, stackedLines, yCenter]

/-- Witness for C7: a one-line page always yields a selection. -/
theorem selectLineIndexes_spec_w :
    ([(⟨0, 0, 10, 10⟩ : Bbox)] ≠ ([] : List Bbox)) ∧
    ∃ idxs, selectLineIndexes [⟨0, 0, 10, 10⟩] ⟨0, 0, 5, 5⟩ (2 / 100) 40 8 = some idxs ∧
      0 < idxs.length :=
  ⟨by simp,
    selectLineIndexes_spec.1 [⟨0, 0, 10, 10⟩] ⟨0, 0, 5, 5⟩ (2 / 100) 40 8 (by simp)⟩

theorem absorbSpan_line_ids (t s : RawSpan) : (absorbSpan t s).line_ids = t.line_ids := rfl

theorem foldl_absorbSpan_line_ids (l : List RawSpan) (s : RawSpan) :
    (l.foldl absorbSpan s).line_ids = s.line_ids := by
  induction l generalizing s with
  | nil => rfl
  | cons x xs ih => simpa [absorbSpan_line_ids] using ih (absorbSpan s x)

theorem foldl_absorbSpan_triggers (l : List RawSpan) (s : RawSpan) :
    (l.foldl absorbSpan s).trigger_bboxes =
      s.trigger_bboxes ++ (l.map (fun t => t.trigger_bboxes)).flatten := by
  induction l generalizing s with
  | nil => simp
  | cons x xs ih =>
      rw [List.foldl_cons, ih (absorbSpan s x)]
      simp [absorbSpan, List.append_assoc]

theorem foldl_absorbSpan_bbox (l : List RawSpan) (s : RawSpan) :
    (l.foldl absorbSpan s).span_bbox =
      (l.map (fun t => t.span_bbox)).foldl bboxUnion2 s.span_bbox := by
  induction l generalizing s with
  | nil => rfl
  | cons x xs ih => simpa [absorbSpan, mergeBbox] using ih (absorbSpan s x)

theorem insert_update_line_ids (x a : RawSpan) :
    (if a.line_ids = x.line_ids then absorbSpan a x else a).line_ids = a.line_ids := by
  by_cases h : a.line_ids = x.line_ids <;> simp [h, absorbSpan_line_ids]

theorem foldl_insertRawSpan_eq (xs : List RawSpan) :
    ∀ acc : List RawSpan,
      xs.foldl insertRawSpan acc =
        acc.map (fun a =>
          (xs.filter (fun t => decide (t.line_ids = a.line_ids))).foldl absorbSpan a) ++
        canonicalMerge
          (xs.filter (fun x => !(acc.any (fun a => decide (a.line_ids = x.line_ids))))) := by
  induction xs with
  | nil =>
      intro acc
      simp [canonicalMerge]
  | cons x rest ih =>
      intro acc
      rw [List.foldl_cons]
      by_cases hc : acc.any (fun t => decide (t.line_ids = x.line_ids)) = true
      · have hins : insertRawSpan acc x =
            acc.map (fun t => if t.line_ids = x.line_ids then absorbSpan t x else t) := by
          simp [insertRawSpan, hc]
        rw [hins, ih]
        congr 1
        · rw [List.map_map]
          apply List.map_congr_left
          intro a _
          by_cases hax : a.line_ids = x.line_ids
          · simp [Function.comp, hax, absorbSpan_line_ids, List.filter_cons]
          · have hxa : ¬ (x.line_ids = a.line_ids) := fun h => hax h.symm
            simp [Function.comp, hax, hxa, List.filter_cons]
        · congr 1
          rw [List.filter_cons]
          simp only [hc, Bool.not_true, if_false, cond_false]
          apply List.filter_congr
          intro y _
          rw [List.any_map]
          have hcomp : ((fun a => decide (a.line_ids = y.line_ids)) ∘
              fun t => if t.line_ids = x.line_ids then absorbSpan t x else t) =
              fun a => decide (a.line_ids = y.line_ids) := by
            funext a
            simp [Function.comp, insert_update_line_ids]
          rw [hcomp]
      · have hins : insertRawSpan acc x = acc ++ [x] := by
          simp only [insertRawSpan]
          rw [if_neg (by simpa using hc)]
        have hanyx : ∀ t ∈ acc, ¬ (t.line_ids = x.line_ids) := by
          simpa using hc
        rw [hins, ih]
        have hfilterP : (x :: rest).filter
            (fun y => !(acc.any (fun a => decide (a.line_ids = y.line_ids)))) =
            x :: rest.filter
              (fun y => !(acc.any (fun a => decide (a.line_ids = y.line_ids)))) := by
          rw [List.filter_cons]
          simp only [hc]
          simp
        rw [hfilterP]
        rw [show canonicalMerge (x :: rest.filter
            (fun y => !(acc.any (fun a => decide (a.line_ids = y.line_ids))))) =
          ((rest.filter (fun y => !(acc.any (fun a => decide (a.line_ids = y.line_ids))))).filter
              (fun t => decide (t.line_ids = x.line_ids))).foldl absorbSpan x ::
            canonicalMerge
              ((rest.filter (fun y => !(acc.any (fun a => decide (a.line_ids = y.line_ids))))).filter
                (fun t => decide (t.line_ids ≠ x.line_ids))) from by
          simp [canonicalMerge]]
        rw [List.map_append]
        have hgrp : (rest.filter
            (fun y => !(acc.any (fun a => decide (a.line_ids = y.line_ids))))).filter
              (fun t => decide (t.line_ids = x.line_ids)) =
            rest.filter (fun t => decide (t.line_ids = x.line_ids)) := by
          rw [List.filter_filter]
          apply List.filter_congr
          intro y _
          by_cases hyx : y.line_ids = x.line_ids
          · simpa [hyx, List.any_eq_false] using hanyx
          · simp [hyx]
        have hrest : (rest.filter
            (fun y => !(acc.any (fun a => decide (a.line_ids = y.line_ids))))).filter
              (fun t => decide (t.line_ids ≠ x.line_ids)) =
            rest.filter
              (fun y => !((acc ++ [x]).any (fun a => decide (a.line_ids = y.line_ids)))) := by
          rw [List.filter_filter]
          apply List.filter_congr
          intro y _
          by_cases hyx : y.line_ids = x.line_ids
          · simp [hyx, List.any_append]
          · have hxy : ¬ (x.line_ids = y.line_ids) := fun h => hyx h.symm
            simp [hyx, hxy, List.any_append]
        have hmapacc : acc.map (fun a =>
            (rest.filter (fun t => decide (t.line_ids = a.line_ids))).foldl absorbSpan a) =
            acc.map (fun a =>
              ((x :: rest).filter (fun t => decide (t.line_ids = a.line_ids))).foldl
                absorbSpan a) := by
          apply List.map_congr_left
          intro a ha
          have hxa : ¬ (x.line_ids = a.line_ids) := fun h => (hanyx a ha) h.symm
          rw [List.filter_cons]
          simp [hxa]
        rw [hgrp, hrest, hmapacc]
        simp

theorem mergeRawSpans_eq_canonical (xs : List RawSpan) :
    mergeRawSpans xs = canonicalMerge xs := by
  have h := foldl_insertRawSpan_eq xs []
  simpa [mergeRawSpans] using h

theorem mem_canonicalMerge_key (xs : List RawSpan) :
    ∀ a ∈ canonicalMerge xs, ∃ t ∈ xs, a.line_ids = t.line_ids := by
  induction xs using canonicalMerge.induct with
  | case1 => simp [canonicalMerge]
  | case2 s rest ih =>
      intro a ha
      simp only [canonicalMerge] at ha
      rcases List.mem_cons.1 ha with h | h
      · exact ⟨s, List.mem_cons_self s rest, by rw [h, foldl_absorbSpan_line_ids]⟩
      · obtain ⟨t, ht, hkey⟩ := ih a h
        exact ⟨t, List.mem_cons_of_mem _ (List.mem_of_mem_filter ht), hkey⟩

theorem canonicalMerge_pairwise (xs : List RawSpan) :
    (canonicalMerge xs).Pairwise (fun a b => a.line_ids ≠ b.line_ids) := by
  induction xs using canonicalMerge.induct with
  | case1 => simp [canonicalMerge]
  | case2 s rest ih =>
      simp only [canonicalMerge]
      refine List.Pairwise.cons ?_ ih
      intro b hb
      obtain ⟨t, ht, hkey⟩ := mem_canonicalMerge_key _ b hb
      have hne : t.line_ids ≠ s.line_ids := by simpa using List.of_mem_filter ht
      rw [foldl_absorbSpan_line_ids, hkey]
      exact fun h => hne h.symm

theorem canonicalMerge_of_pairwise (xs : List RawSpan)
    (h : xs.Pairwise (fun a b => a.line_ids ≠ b.line_ids)) : canonicalMerge xs = xs := by
  induction xs using canonicalMerge.induct with
  | case1 => simp [canonicalMerge]
  | case2 s rest ih =>
      rcases List.pairwise_cons.1 h with ⟨hhead, htail⟩
      have h1 : rest.filter (fun t => decide (t.line_ids = s.line_ids)) = [] := by
        rw [List.filter_eq_nil_iff]
        intro t ht
        simpa using fun heq => (hhead t ht) heq.symm
      have h2 : rest.filter (fun t => decide (t.line_ids ≠ s.line_ids)) = rest := by
        rw [List.filter_eq_self]
        intro t ht
        simpa using fun heq => (hhead t ht) heq.symm
      rw [h2] at ih
      simp only [canonicalMerge, h1, h2, List.foldl_nil]
      rw [ih htail]

/-- C1 counterexample: two raw spans that share the line id `p1_l2` and whose
bounding boxes geometrically overlap are NOT combined — the merge step keeps
them as two spans because their `line_ids` lists are not identical. -/
theorem mergeRawSpans_no_transitive_merge_cex :
    ("p1_l2" ∈ (RawSpan.mk 1 ["p1_l1", "p1_l2"]
        [⟨0, 0, 10, 10⟩] ⟨0, 0, 10, 10⟩).line_ids ∧
     "p1_l2" ∈ (RawSpan.mk 1 ["p1_l2", "p1_l3"]
        [⟨5, 5, 15, 15⟩] ⟨5, 5, 15, 15⟩).line_ids ∧
     0 < bboxOverlap ⟨0, 0, 10, 10⟩ ⟨5, 5, 15, 15⟩) ∧
    (mergeRawSpans [RawSpan.mk 1 ["p1_l1", "p1_l2"] [⟨0, 0, 10, 10⟩] ⟨0, 0, 10, 10⟩,
        RawSpan.mk 1 ["p1_l2", "p1_l3"] [⟨5, 5, 15, 15⟩] ⟨5, 5, 15, 15⟩]).length = 2 := by
  refine ⟨⟨?_, ?_, ?_⟩, ?_⟩ <;> decide

/-- C1 amended: the merge step combines raw spans exactly when their
`line_ids` lists are identical — the output groups the raw spans by equal
line-id list in order of first appearance (`canonicalMerge`), and each group
is folded together keeping the line-id list, concatenating the trigger-box
lists in input order, and taking the componentwise union of the bounding
boxes.  Spans that merely share some line identifier or overlap
geometrically are not merged. -/
theorem mergeRawSpans_groups_by_line_ids (xs : List RawSpan) :
    mergeRawSpans xs = canonicalMerge xs ∧
    ∀ (s : RawSpan) (l : List RawSpan),
      (l.foldl absorbSpan s).line_ids = s.line_ids ∧
      (l.foldl absorbSpan s).trigger_bboxes =
        s.trigger_bboxes ++ (l.map (fun t => t.trigger_bboxes)).flatten ∧
      (l.foldl absorbSpan s).span_bbox =
        (l.map (fun t => t.span_bbox)).foldl bboxUnion2 s.span_bbox :=
  ⟨mergeRawSpans_eq_canonical xs, fun s l =>
    ⟨foldl_absorbSpan_line_ids l s, foldl_absorbSpan_triggers l s, foldl_absorbSpan_bbox l s⟩⟩

/-- C9: span merging is idempotent — re-merging the merged spans returns
them unchanged (the same grouping of line identifiers, literally the same
list). -/
theorem mergeRawSpans_idempotent (xs : List RawSpan) :
    mergeRawSpans (mergeRawSpans xs) = mergeRawSpans xs := by
  simp only [mergeRawSpans_eq_canonical]
  exact canonicalMerge_of_pairwise _ (canonicalMerge_pairwise xs)

theorem takeRun_spec (c : Char) (l : List Char) :
    l = List.replicate (takeRun c l).1 c ++ (takeRun c l).2 := by
  induction l with
  | nil => rfl
  | cons a rest ih =>
      by_cases h : a = c
      · subst h
        have hrun : takeRun a (a :: rest) = ((takeRun a rest).1 + 1, (takeRun a rest).2) := by
          simp [takeRun]
        rw [hrun, List.replicate_succ, List.cons_append]
        exact congrArg (List.cons a) ih
      · simp [takeRun, h]

theorem parsePlain_sound (lo mid hi : Char) (l rest : List Char) (sh : RomanGroupShape)
    (h : parsePlain lo mid l = some (sh, rest)) :
    l = renderGroup lo mid hi sh ++ rest := by
  rcases l with _ | ⟨a, t⟩
  · simp only [parsePlain, takeRun] at h
    rw [if_pos (by norm_num)] at h
    simp only [Option.some.injEq, Prod.mk.injEq] at h
    obtain ⟨hsh, hrest⟩ := h
    subst hsh
    subst hrest
    rfl
  · by_cases ha : a = mid
    · subst ha
      simp only [parsePlain, eq_self_iff_true, if_true] at h
      dsimp only at h
      by_cases h5 : (takeRun lo t).1 < 4
      · rw [if_pos h5] at h
        simp only [Option.some.injEq, Prod.mk.injEq] at h
        obtain ⟨hsh, hrest⟩ := h
        subst hsh
        subst hrest
        simp only [renderGroup, eq_self_iff_true, if_true]
        rw [Nat.mod_eq_of_lt h5, List.cons_append, List.nil_append]
        exact congrArg (List.cons a) (takeRun_spec lo t)
      · rw [if_neg h5] at h
        cases h
    · simp only [parsePlain, if_neg ha] at h
      dsimp only at h
      by_cases h5 : (takeRun lo (a :: t)).1 < 4
      · rw [if_pos h5] at h
        simp only [Option.some.injEq, Prod.mk.injEq] at h
        obtain ⟨hsh, hrest⟩ := h
        subst hsh
        subst hrest
        simp only [renderGroup, Bool.false_eq_true, if_neg, List.nil_append]
        rw [Nat.mod_eq_of_lt h5]
        exact takeRun_spec lo (a :: t)
      · rw [if_neg h5] at h
        cases h

theorem parseGroup_sound (lo mid hi : Char) (l rest : List Char) (sh : RomanGroupShape)
    (h : parseGroup lo mid hi l = some (sh, rest)) :
    l = renderGroup lo mid hi sh ++ rest := by
  rcases l with _ | ⟨a, t⟩
  · exact parsePlain_sound lo mid hi _ _ _ h
  · rcases t with _ | ⟨b, t2⟩
    · exact parsePlain_sound lo mid hi _ _ _ h
    · simp only [parseGroup] at h
      split_ifs at h with h1 h2
      · simp only [Option.some.injEq, Prod.mk.injEq] at h
        obtain ⟨hsh, hrest⟩ := h
        subst hsh
        subst hrest
        obtain ⟨rfl, rfl⟩ := h1
        rfl
      · simp only [Option.some.injEq, Prod.mk.injEq] at h
        obtain ⟨hsh, hrest⟩ := h
        subst hsh
        subst hrest
        obtain ⟨rfl, rfl⟩ := h2
        rfl
      · exact parsePlain_sound lo mid hi _ _ _ h

theorem parseRomanStrict_sound (l : List Char) (p : RomanStrictParse)
    (h : parseRomanStrict l = some p) : l = renderRoman p := by
  simp only [parseRomanStrict] at h
  by_cases hm : (takeRun 'm' l).1 < 5
  · rw [dif_pos hm] at h
    rcases hH : parseGroup 'c' 'd' 'm' (takeRun 'm' l).2 with _ | ⟨hs, l2⟩
    · rw [hH] at h; cases h
    · rw [hH] at h
      dsimp only at h
      rcases hT : parseGroup 'x' 'l' 'c' l2 with _ | ⟨ts, l3⟩
      · rw [hT] at h; cases h
      · rw [hT] at h
        dsimp only at h
        rcases hU : parseGroup 'i' 'v' 'x' l3 with _ | ⟨us, l4⟩
        · rw [hU] at h; cases h
        · rw [hU] at h
          dsimp only at h
          by_cases h4 : l4 = []
          · rw [if_pos h4] at h
            simp only [Option.some.injEq] at h
            subst h
            have e1 := takeRun_spec 'm' l
            have e2 := parseGroup_sound 'c' 'd' 'm' _ _ _ hH
            have e3 := parseGroup_sound 'x' 'l' 'c' _ _ _ hT
            have e4 := parseGroup_sound 'i' 'v' 'x' _ _ _ hU
            rw [h4, List.append_nil] at e4
            rw [e4] at e3
            rw [e3] at e2
            rw [e2] at e1
            simpa [renderRoman, List.append_assoc] using e1
          · rw [if_neg h4] at h; cases h
  · rw [dif_neg hm] at h; cases h

theorem mem_head?_append {α : Type} {b : α} {l l2 : List α} (h : b ∈ (l ++ l2).head?) :
    b ∈ l.head? ∨ b ∈ l2.head? := by
  cases l <;> simp_all

theorem subtractivePairCount_append (xs ys : List Char)
    (h : ∀ a ∈ xs.getLast?, ∀ b ∈ ys.head?, ¬ ROMAN_VALUES a < ROMAN_VALUES b) :
    subtractivePairCount (xs ++ ys) = subtractivePairCount xs + subtractivePairCount ys := by
  induction xs with
  | nil => simp [subtractivePairCount]
  | cons a t ih =>
      cases t with
      | nil =>
          cases ys with
          | nil => simp [subtractivePairCount]
          | cons y ys2 =>
              have hb : ¬ ROMAN_VALUES a < ROMAN_VALUES y := h a (by simp) y (by simp)
              simp [subtractivePairCount, hb]
      | cons b t2 =>
          have h2 : ∀ a2 ∈ (b :: t2).getLast?, ∀ b2 ∈ ys.head?,
              ¬ ROMAN_VALUES a2 < ROMAN_VALUES b2 := by
            intro a2 ha2 b2 hb2
            exact h a2 (by rwa [List.getLast?_cons_cons]) b2 hb2
          have ih2 := ih h2
          show (if ROMAN_VALUES a < ROMAN_VALUES b then 1 else 0) +
              subtractivePairCount (b :: (t2 ++ ys)) = _
          rw [show subtractivePairCount (a :: b :: t2) =
            (if ROMAN_VALUES a < ROMAN_VALUES b then 1 else 0) +
              subtractivePairCount (b :: t2) from rfl]
          rw [show b :: (t2 ++ ys) = (b :: t2) ++ ys from rfl, ih2]
          omega

theorem subtractivePairsStandard_append (xs ys : List Char)
    (h : ∀ a ∈ xs.getLast?, ∀ b ∈ ys.head?, ¬ ROMAN_VALUES a < ROMAN_VALUES b) :
    subtractivePairsStandard (xs ++ ys) =
      (subtractivePairsStandard xs && subtractivePairsStandard ys) := by
  induction xs with
  | nil => simp [subtractivePairsStandard]
  | cons a t ih =>
      cases t with
      | nil =>
          cases ys with
          | nil => simp [subtractivePairsStandard]
          | cons y ys2 =>
              have hb : ¬ ROMAN_VALUES a < ROMAN_VALUES y := h a (by simp) y (by simp)
              simp [subtractivePairsStandard, hb]
      | cons b t2 =>
          have h2 : ∀ a2 ∈ (b :: t2).getLast?, ∀ b2 ∈ ys.head?,
              ¬ ROMAN_VALUES a2 < ROMAN_VALUES b2 := by
            intro a2 ha2 b2 hb2
            exact h a2 (by rwa [List.getLast?_cons_cons]) b2 hb2
          have ih2 := ih h2
          show ((if ROMAN_VALUES a < ROMAN_VALUES b then
              decide ((a, b) ∈ ROMAN_SUBTRACTIVES) else true) &&
              subtractivePairsStandard (b :: (t2 ++ ys))) = _
          rw [show subtractivePairsStandard (a :: b :: t2) =
            ((if ROMAN_VALUES a < ROMAN_VALUES b then
              decide ((a, b) ∈ ROMAN_SUBTRACTIVES) else true) &&
              subtractivePairsStandard (b :: t2)) from rfl]
          rw [show b :: (t2 ++ ys) = (b :: t2) ++ ys from rfl, ih2]
          rw [Bool.and_assoc]

theorem hundreds_count : ∀ sh : RomanGroupShape,
    subtractivePairCount (renderGroup 'c' 'd' 'm' sh) ≤ 1 := by decide

theorem tens_count : ∀ sh : RomanGroupShape,
    subtractivePairCount (renderGroup 'x' 'l' 'c' sh) ≤ 1 := by decide

theorem units_count : ∀ sh : RomanGroupShape,
    subtractivePairCount (renderGroup 'i' 'v' 'x' sh) ≤ 1 := by decide

theorem hundreds_standard : ∀ sh : RomanGroupShape,
    subtractivePairsStandard (renderGroup 'c' 'd' 'm' sh) = true := by decide

theorem tens_standard : ∀ sh : RomanGroupShape,
    subtractivePairsStandard (renderGroup 'x' 'l' 'c' sh) = true := by decide

theorem units_standard : ∀ sh : RomanGroupShape,
    subtractivePairsStandard (renderGroup 'i' 'v' 'x' sh) = true := by decide

theorem hundreds_head : ∀ sh : RomanGroupShape,
    ∀ b ∈ (renderGroup 'c' 'd' 'm' sh).head?, ROMAN_VALUES b ≤ 500 := by decide

theorem tens_head : ∀ sh : RomanGroupShape,
    ∀ b ∈ (renderGroup 'x' 'l' 'c' sh).head?, ROMAN_VALUES b ≤ 50 := by decide

theorem units_head : ∀ sh : RomanGroupShape,
    ∀ b ∈ (renderGroup 'i' 'v' 'x' sh).head?, ROMAN_VALUES b ≤ 5 := by decide

theorem hundreds_last : ∀ sh : RomanGroupShape,
    ∀ a ∈ (renderGroup 'c' 'd' 'm' sh).getLast?, 100 ≤ ROMAN_VALUES a := by decide

theorem tens_last : ∀ sh : RomanGroupShape,
    ∀ a ∈ (renderGroup 'x' 'l' 'c' sh).getLast?, 10 ≤ ROMAN_VALUES a := by decide

theorem replicate_pair_count (c : Char) (n : Nat) :
    subtractivePairCount (List.replicate n c) = 0 := by
  induction n with
  | zero => rfl
  | succ k ih =>
      cases k with
      | zero => rfl
      | succ k2 =>
          show (if ROMAN_VALUES c < ROMAN_VALUES c then 1 else 0) +
              subtractivePairCount (List.replicate (k2 + 1) c) = 0
          simp [ih]

theorem replicate_pairs_standard (c : Char) (n : Nat) :
    subtractivePairsStandard (List.replicate n c) = true := by
  induction n with
  | zero => rfl
  | succ k ih =>
      cases k with
      | zero => rfl
      | succ k2 =>
          show ((if ROMAN_VALUES c < ROMAN_VALUES c then
              decide ((c, c) ∈ ROMAN_SUBTRACTIVES) else true) &&
              subtractivePairsStandard (List.replicate (k2 + 1) c)) = true
          simp [ih]

theorem renderRoman_bound (p : RomanStrictParse) :
    subtractivePairCount (renderRoman p) ≤ 3 ∧
    subtractivePairsStandard (renderRoman p) = true := by
  obtain ⟨m, hs, ts, us⟩ := p
  have hassoc : renderRoman ⟨m, hs, ts, us⟩ =
      List.replicate m.val 'm' ++ (renderGroup 'c' 'd' 'm' hs ++
        (renderGroup 'x' 'l' 'c' ts ++ renderGroup 'i' 'v' 'x' us)) := by
    simp [renderRoman, List.append_assoc]
  have hb3 : ∀ a ∈ (renderGroup 'x' 'l' 'c' ts).getLast?,
      ∀ b ∈ (renderGroup 'i' 'v' 'x' us).head?, ¬ ROMAN_VALUES a < ROMAN_VALUES b := by
    intro a ha b hb
    have h1 := tens_last ts a ha
    have h2 := units_head us b hb
    omega
  have hb2 : ∀ a ∈ (renderGroup 'c' 'd' 'm' hs).getLast?,
      ∀ b ∈ (renderGroup 'x' 'l' 'c' ts ++ renderGroup 'i' 'v' 'x' us).head?,
      ¬ ROMAN_VALUES a < ROMAN_VALUES b := by
    intro a ha b hb
    have h1 := hundreds_last hs a ha
    rcases mem_head?_append hb with h | h
    · have := tens_head ts b h
      omega
    · have := units_head us b h
      omega
  have hb1 : ∀ a ∈ (List.replicate m.val 'm').getLast?,
      ∀ b ∈ (renderGroup 'c' 'd' 'm' hs ++
        (renderGroup 'x' 'l' 'c' ts ++ renderGroup 'i' 'v' 'x' us)).head?,
      ¬ ROMAN_VALUES a < ROMAN_VALUES b := by
    intro a ha b hb
    have ham : a = 'm' := List.eq_of_mem_replicate (List.mem_of_getLast?_eq_some ha)
    subst ham
    have hval : ROMAN_VALUES 'm' = 1000 := rfl
    rcases mem_head?_append hb with h | h
    · have := hundreds_head hs b h
      omega
    · rcases mem_head?_append h with h2 | h2
      · have := tens_head ts b h2
        omega
      · have := units_head us b h2
        omega
  constructor
  · rw [hassoc, subtractivePairCount_append _ _ hb1, subtractivePairCount_append _ _ hb2,
      subtractivePairCount_append _ _ hb3, replicate_pair_count]
    have c1 := hundreds_count hs
    have c2 := tens_count ts
    have c3 := units_count us
    omega
  · rw [hassoc, subtractivePairsStandard_append _ _ hb1, subtractivePairsStandard_append _ _ hb2,
      subtractivePairsStandard_append _ _ hb3, replicate_pairs_standard,
      hundreds_standard, tens_standard, units_standard]
    rfl

/-- C6 counterexample: the token `xliv` is accepted by the roman path — it
passes the strict grammar, decodes to 44, and also satisfies the default
length and value bounds — yet its normalized sequence contains two
subtractive pairs (`xl` and `iv`), not at most one. -/
theorem roman_single_subtractive_pair_cex :
    roman_to_int "xliv" = some 44 ∧
    is_plausible_roman "xliv" 2 80 = true ∧
    subtractivePairsStandard (normalize_roman "xliv").data = true ∧
    subtractivePairCount (normalize_roman "xliv").data = 2 ∧
    ¬ subtractivePairCount (normalize_roman "xliv").data ≤ 1 := by
  refine ⟨?_, ?_, ?_, ?_, ?_⟩ <;> decide

/-- C6 amended: for every token accepted by the roman path (strict grammar
plus successful decode), the normalized sequence contains at most one
subtractive pair per magnitude group — hence at most three in the whole
numeral — and every subtractive pair is one of the standard pairs (iv, ix,
xl, xc, cd, cm). -/
theorem roman_accept_subtractive_pairs (s : String) (v : Nat)
    (h : roman_to_int s = some v) :
    subtractivePairCount (normalize_roman s).data ≤ 3 ∧
    subtractivePairsStandard (normalize_roman s).data = true := by
  unfold roman_to_int at h
  by_cases h0 : normalize_roman s = ""
  · rw [if_pos h0] at h
    cases h
  · rw [if_neg h0] at h
    by_cases h1 : romanStrictMatch (normalize_roman s)
    · obtain ⟨p, hp⟩ := Option.isSome_iff_exists.1 (by simpa [romanStrictMatch] using h1)
      rw [parseRomanStrict_sound _ p hp]
      exact renderRoman_bound p
    · rw [if_pos h1] at h
      cases h

/-- Witness for C6 at `xiv` (the spec's own roman example). -/
theorem roman_accept_subtractive_pairs_w :
    roman_to_int "xiv" = some 14 ∧
    (subtractivePairCount (normalize_roman "xiv").data ≤ 3 ∧
      subtractivePairsStandard (normalize_roman "xiv").data = true) :=
  ⟨by decide, roman_accept_subtractive_pairs "xiv" 14 (by decide)⟩

theorem sum_lt_length_mul (l : List Rat) (hl : l ≠ []) (m : Rat) (h : ∀ a ∈ l, a < m) :
    l.sum < l.length * m := by
  induction l with
  | nil => exact absurd rfl hl
  | cons a t ih =>
      cases t with
      | nil => simpa using h a (by simp)
      | cons b t2 =>
          have h1 := h a (by simp)
          have h2 : (b :: t2).sum < ((b :: t2).length : Rat) * m :=
            ih (by simp) (fun x hx => h x (by simp [hx]))
          simp only [List.sum_cons, List.length_cons] at *
          push_cast at *
          linarith

theorem length_mul_lt_sum (l : List Rat) (hl : l ≠ []) (m : Rat) (h : ∀ a ∈ l, m < a) :
    (l.length : Rat) * m < l.sum := by
  induction l with
  | nil => exact absurd rfl hl
  | cons a t ih =>
      cases t with
      | nil => simpa using h a (by simp)
      | cons b t2 =>
          have h1 := h a (by simp)
          have h2 : ((b :: t2).length : Rat) * m < (b :: t2).sum :=
            ih (by simp) (fun x hx => h x (by simp [hx]))
          simp only [List.sum_cons, List.length_cons] at *
          push_cast at *
          linarith

theorem listLengthPos (ws : List OcrWord) (hne : ws ≠ []) : (0 : Rat) < ws.length := by
  exact_mod_cast List.length_pos.2 hne

theorem clusterMean_le (ws : List OcrWord) (hne : ws ≠ []) (m : Rat)
    (h : ∀ a ∈ ws.map wordYCenter, a ≤ m) : clusterMean ws ≤ m := by
  have hlen := listLengthPos ws hne
  rw [clusterMean, div_le_iff₀ hlen]
  have hs := List.sum_le_card_nsmul (ws.map wordYCenter) m h
  simpa [List.length_map, nsmul_eq_mul, mul_comm] using hs

theorem clusterMean_lt (ws : List OcrWord) (hne : ws ≠ []) (m : Rat)
    (h : ∀ a ∈ ws.map wordYCenter, a < m) : clusterMean ws < m := by
  have hlen := listLengthPos ws hne
  rw [clusterMean, div_lt_iff₀ hlen]
  have hs := sum_lt_length_mul (ws.map wordYCenter) (by simpa using hne) m h
  simpa [List.length_map, mul_comm] using hs

theorem lt_clusterMean (ws : List OcrWord) (hne : ws ≠ []) (m : Rat)
    (h : ∀ a ∈ ws.map wordYCenter, m < a) : m < clusterMean ws := by
  have hlen := listLengthPos ws hne
  rw [clusterMean, lt_div_iff₀ hlen]
  have hs := length_mul_lt_sum (ws.map wordYCenter) (by simpa using hne) m h
  simpa [List.length_map, mul_comm] using hs

theorem clusterMean_append_ge (ws : List OcrWord) (hne : ws ≠ []) (x : OcrWord)
    (hx : clusterMean ws ≤ wordYCenter x) :
    clusterMean ws ≤ clusterMean (ws ++ [x]) := by
  have hlen := listLengthPos ws hne
  have hX : (ws.map wordYCenter).sum ≤ wordYCenter x * ws.length :=
    (div_le_iff₀ hlen).1 hx
  rw [clusterMean, clusterMean, List.map_append, List.sum_append, List.length_append]
  simp only [List.map_cons, List.map_nil, List.sum_cons, List.sum_nil, List.length_cons,
    List.length_nil]
  rw [div_le_div_iff₀ hlen (by push_cast; linarith)]
  push_cast
  nlinarith [hX]

theorem clusterMean_singleton (w : OcrWord) : clusterMean [w] = wordYCenter w := by
  simp [clusterMean]

theorem addToClusters_concat (tol : Rat) (w : OcrWord) (front : List Cluster) (c0 : Cluster)
    (hfront : ∀ c ∈ front, ¬ (|wordYCenter w - c.center_y| ≤ tol)) :
    addToClusters tol (front ++ [c0]) w =
      if |wordYCenter w - c0.center_y| ≤ tol then
        front ++ [⟨clusterMean (c0.words ++ [w]), c0.words ++ [w]⟩]
      else front ++ [c0, ⟨wordYCenter w, [w]⟩] := by
  induction front with
  | nil => by_cases h : |wordYCenter w - c0.center_y| ≤ tol <;> simp [addToClusters, h]
  | cons c front2 ih =>
      have hc := hfront c (List.mem_cons_self c front2)
      rw [List.cons_append]
      rw [show addToClusters tol (c :: (front2 ++ [c0])) w =
        c :: addToClusters tol (front2 ++ [c0]) w from by simp [addToClusters, hc]]
      rw [ih (fun c2 hc2 => hfront c2 (List.mem_cons_of_mem _ hc2))]
      by_cases h : |wordYCenter w - c0.center_y| ≤ tol <;> simp [h]

theorem addToClusters_step (tol : Rat) (htol : 0 ≤ tol) (cs : List Cluster) (w : OcrWord)
    (rest : List OcrWord) (hinv : ClustInv tol cs (w :: rest))
    (hsort : ∀ w2 ∈ rest, wordYCenter w ≤ wordYCenter w2) :
    ClustInv tol (addToClusters tol cs w) rest := by
  obtain ⟨hGood, hPair, hFut, hFroz⟩ := hinv
  rcases List.eq_nil_or_concat cs with rfl | ⟨front, c0, rfl⟩
  · simp only [addToClusters]
    refine ⟨?_, ?_, ?_, ?_⟩
    · intro c hc
      simp only [List.mem_singleton] at hc
      subst hc
      refine ⟨by simp, by simp [clusterMean_singleton], ?_⟩
      intro a ha
      simp only [wcs, List.map_cons, List.map_nil, List.mem_singleton] at ha
      subst ha
      linarith
    · simp
    · intro w2 hw2 c hc a ha
      simp only [List.mem_singleton] at hc
      subst hc
      simp only [wcs, List.map_cons, List.map_nil, List.mem_singleton] at ha
      subst ha
      exact hsort w2 hw2
    · intro w2 hw2 c hc
      simp at hc
  · simp only [List.concat_eq_append] at hGood hPair hFut hFroz ⊢
    have hdropLast : (front ++ [c0]).dropLast = front := by simp
    rw [hdropLast] at hFroz
    have hwmem : w ∈ w :: rest := List.mem_cons_self w rest
    have hfrontw : ∀ c ∈ front, ¬ (|wordYCenter w - c.center_y| ≤ tol) := by
      intro c hc habs
      have h1 := hFroz w hwmem c hc
      have h2 : wordYCenter w - c.center_y ≤ tol := (abs_le.1 habs).2
      linarith
    obtain ⟨hc0ne, hc0mean, hc0tol⟩ := hGood c0 (by simp)
    have hallle : ∀ a ∈ wcs c0, a ≤ wordYCenter w := fun a ha => hFut w hwmem c0 (by simp) a ha
    have hc0le : c0.center_y ≤ wordYCenter w := by
      rw [hc0mean]
      exact clusterMean_le c0.words hc0ne _ hallle
    rw [addToClusters_concat tol w front c0 hfrontw]
    by_cases hmatch : |wordYCenter w - c0.center_y| ≤ tol
    · rw [if_pos hmatch]
      set c1 : Cluster := ⟨clusterMean (c0.words ++ [w]), c0.words ++ [w]⟩ with hc1
      have hc1wcs : wcs c1 = wcs c0 ++ [wordYCenter w] := by simp [wcs, hc1]
      have hnewge : c0.center_y ≤ c1.center_y := by
        rw [hc0mean]
        exact clusterMean_append_ge c0.words hc0ne w (by rw [← hc0mean]; exact hc0le)
      have hGoodc1 : GoodC tol c1 := by
        refine ⟨by simp [hc1], rfl, ?_⟩
        intro a ha
        rw [hc1wcs] at ha
        rcases List.mem_append.1 ha with h | h
        · have := hc0tol a h
          linarith
        · simp only [List.mem_singleton] at h
          subst h
          have h2 : wordYCenter w - c0.center_y ≤ tol := (abs_le.1 hmatch).2
          linarith
      refine ⟨?_, ?_, ?_, ?_⟩
      · intro c hc
        rcases List.mem_append.1 hc with h | h
        · exact hGood c (List.mem_append_left _ h)
        · simp only [List.mem_singleton] at h
          subst h
          exact hGoodc1
      · rw [List.pairwise_append] at hPair ⊢
        obtain ⟨hpf, _, hcross⟩ := hPair
        refine ⟨hpf, by simp, ?_⟩
        intro c hc b hb
        simp only [List.mem_singleton] at hb
        subst hb
        intro a ha b hb
        rw [hc1wcs] at hb
        rcases List.mem_append.1 hb with h | h
        · exact hcross c hc c0 (by simp) a ha b h
        · simp only [List.mem_singleton] at h
          subst h
          obtain ⟨_, _, hgc⟩ := hGood c (List.mem_append_left _ hc)
          have h1 := hgc a ha
          have h2 := hFroz w hwmem c hc
          linarith
      · intro w2 hw2 c hc a ha
        rcases List.mem_append.1 hc with h | h
        · exact hFut w2 (List.mem_cons_of_mem _ hw2) c (List.mem_append_left _ h) a ha
        · simp only [List.mem_singleton] at h
          subst h
          rw [hc1wcs] at ha
          rcases List.mem_append.1 ha with h2 | h2
          · exact hFut w2 (List.mem_cons_of_mem _ hw2) c0 (by simp) a h2
          · simp only [List.mem_singleton] at h2
            subst h2
            exact hsort w2 hw2
      · intro w2 hw2 c hc
        rw [show (front ++ [c1]).dropLast = front from by simp] at hc
        have h1 := hFroz w hwmem c hc
        have h2 := hsort w2 hw2
        linarith
    · rw [if_neg hmatch]
      set cn : Cluster := ⟨wordYCenter w, [w]⟩ with hcn
      have hgt : tol < wordYCenter w - c0.center_y := by
        rcases lt_or_le tol (wordYCenter w - c0.center_y) with h | h
        · exact h
        · exact absurd (abs_le.2 ⟨by linarith, h⟩) hmatch
      have hcnwcs : wcs cn = [wordYCenter w] := by simp [wcs, hcn]
      have hGoodcn : GoodC tol cn := by
        refine ⟨by simp [hcn], by simp [hcn, clusterMean_singleton], ?_⟩
        intro a ha
        rw [hcnwcs] at ha
        simp only [List.mem_singleton] at ha
        subst ha
        simp only [hcn]
        linarith
      refine ⟨?_, ?_, ?_, ?_⟩
      · intro c hc
        rcases List.mem_append.1 hc with h | h
        · exact hGood c (List.mem_append_left _ h)
        · simp only [List.mem_cons, List.mem_singleton, List.not_mem_nil, or_false] at h
          rcases h with h | h
          · rw [h]
            exact hGood c0 (by simp)
          · rw [h]
            exact hGoodcn
      · rw [List.pairwise_append] at hPair ⊢
        obtain ⟨hpf, _, hcross⟩ := hPair
        refine ⟨hpf, ?_, ?_⟩
        · refine List.Pairwise.cons ?_ (by simp)
          intro b hb
          simp only [List.mem_singleton] at hb
          subst hb
          intro a ha b hb
          rw [hcnwcs] at hb
          simp only [List.mem_singleton] at hb
          subst hb
          have h1 := hc0tol a ha
          linarith
        · intro c hc b hb
          simp only [List.mem_cons, List.mem_singleton, List.not_mem_nil, or_false] at hb
          rcases hb with hb | hb
          · rw [hb]
            exact hcross c hc c0 (by simp)
          · rw [hb]
            intro a ha b2 hb2
            rw [hcnwcs] at hb2
            simp only [List.mem_singleton] at hb2
            subst hb2
            obtain ⟨_, _, hgc⟩ := hGood c (List.mem_append_left _ hc)
            have h1 := hgc a ha
            have h2 := hFroz w hwmem c hc
            linarith
      · intro w2 hw2 c hc a ha
        rcases List.mem_append.1 hc with h | h
        · exact hFut w2 (List.mem_cons_of_mem _ hw2) c (List.mem_append_left _ h) a ha
        · simp only [List.mem_cons, List.mem_singleton, List.not_mem_nil, or_false] at h
          rcases h with h | h
          · rw [h] at ha
            exact hFut w2 (List.mem_cons_of_mem _ hw2) c0 (by simp) a ha
          · rw [h] at ha
            rw [hcnwcs] at ha
            simp only [List.mem_singleton] at ha
            subst ha
            exact hsort w2 hw2
      · intro w2 hw2 c hc
        rw [show (front ++ [c0, cn]).dropLast = front ++ [c0] from by
          rw [show front ++ [c0, cn] = (front ++ [c0]) ++ [cn] from by simp]
          simp] at hc
        rcases List.mem_append.1 hc with h | h
        · have h1 := hFroz w hwmem c h
          have h2 := hsort w2 hw2
          linarith
        · simp only [List.mem_singleton] at h
          subst h
          have h2 := hsort w2 hw2
          linarith

theorem foldl_addToClusters_inv (tol : Rat) (htol : 0 ≤ tol) :
    ∀ (ws : List OcrWord) (cs : List Cluster),
      ClustInv tol cs ws →
      ws.Pairwise (fun a b => wordYCenter a ≤ wordYCenter b) →
      ClustInv tol (ws.foldl (addToClusters tol) cs) [] := by
  intro ws
  induction ws with
  | nil =>
      intro cs hinv _
      exact ⟨hinv.1, hinv.2.1, by simp, by simp⟩
  | cons w rest ih =>
      intro cs hinv hsort
      rw [List.foldl_cons]
      rcases List.pairwise_cons.1 hsort with ⟨hw, hrest⟩
      exact ih (addToClusters tol cs w) (addToClusters_step tol htol cs w rest hinv hw) hrest

theorem pairwise_center_lt (tol : Rat) (cs : List Cluster)
    (hGood : ∀ c ∈ cs, GoodC tol c) (hPair : cs.Pairwise SepC) :
    cs.Pairwise (fun c d => c.center_y < d.center_y) := by
  refine hPair.imp_of_mem ?_
  intro c d hcm hdm hsep
  obtain ⟨hcne, hcmean, _⟩ := hGood c hcm
  obtain ⟨hdne, hdmean, _⟩ := hGood d hdm
  rw [hcmean, hdmean]
  apply lt_clusterMean d.words hdne
  intro b hb
  exact clusterMean_lt c.words hcne b (fun a ha => hsep a ha b hb)

theorem wordSortLE_trans : ∀ a b c : OcrWord, wordSortLE a b → wordSortLE b c → wordSortLE a c := by
  intro a b c hab hbc
  simp only [wordSortLE, decide_eq_true_eq] at *
  rcases hab with h | ⟨h1, h2⟩ <;> rcases hbc with h3 | ⟨h3, h4⟩
  · exact Or.inl (lt_trans h h3)
  · exact Or.inl (by rw [← h3]; exact h)
  · exact Or.inl (by rw [h1]; exact h3)
  · exact Or.inr ⟨h1.trans h3, le_trans h2 h4⟩

theorem wordSortLE_total : ∀ a b : OcrWord, wordSortLE a b || wordSortLE b a := by
  intro a b
  simp only [wordSortLE, Bool.or_eq_true, decide_eq_true_eq]
  rcases lt_trichotomy (wordYCenter a) (wordYCenter b) with h | h | h
  · exact Or.inl (Or.inl h)
  · rcases le_total a.bbox.x1 b.bbox.x1 with h2 | h2
    · exact Or.inl (Or.inr ⟨h, h2⟩)
    · exact Or.inr (Or.inr ⟨h.symm, h2⟩)
  · exact Or.inr (Or.inl h)

theorem yCenter_union2_le (a b : Bbox) :
    yCenter (bboxUnion2 a b) ≤ yCenter a ∨ yCenter (bboxUnion2 a b) ≤ yCenter b := by
  simp only [bboxUnion2, yCenter]
  rcases le_total a.y2 b.y2 with h | h
  · right
    have h1 : ((min a.y1 b.y1 : Int) : Rat) ≤ (b.y1 : Rat) := by
      exact_mod_cast min_le_right a.y1 b.y1
    have h2 : ((max a.y2 b.y2 : Int) : Rat) = (b.y2 : Rat) := by
      exact_mod_cast congrArg Int.cast (max_eq_right h)
    rw [h2]
    linarith
  · left
    have h1 : ((min a.y1 b.y1 : Int) : Rat) ≤ (a.y1 : Rat) := by
      exact_mod_cast min_le_left a.y1 b.y1
    have h2 : ((max a.y2 b.y2 : Int) : Rat) = (a.y2 : Rat) := by
      exact_mod_cast congrArg Int.cast (max_eq_left h)
    rw [h2]
    linarith

theorem yCenter_union2_ge (a b : Bbox) :
    yCenter a ≤ yCenter (bboxUnion2 a b) ∨ yCenter b ≤ yCenter (bboxUnion2 a b) := by
  simp only [bboxUnion2, yCenter]
  rcases le_total a.y1 b.y1 with h | h
  · left
    have h1 : ((min a.y1 b.y1 : Int) : Rat) = (a.y1 : Rat) := by
      exact_mod_cast congrArg Int.cast (min_eq_left h)
    have h2 : (a.y2 : Rat) ≤ ((max a.y2 b.y2 : Int) : Rat) := by
      exact_mod_cast le_max_left a.y2 b.y2
    rw [h1]
    linarith
  · right
    have h1 : ((min a.y1 b.y1 : Int) : Rat) = (b.y1 : Rat) := by
      exact_mod_cast congrArg Int.cast (min_eq_right h)
    have h2 : (b.y2 : Rat) ≤ ((max a.y2 b.y2 : Int) : Rat) := by
      exact_mod_cast le_max_right a.y2 b.y2
    rw [h1]
    linarith

theorem foldl_union2_upper : ∀ (bs : List Bbox) (b : Bbox),
    ∃ c, (c = b ∨ c ∈ bs) ∧ yCenter (bs.foldl bboxUnion2 b) ≤ yCenter c := by
  intro bs
  induction bs with
  | nil => exact fun b => ⟨b, Or.inl rfl, le_refl _⟩
  | cons b2 bs2 ih =>
      intro b
      rw [List.foldl_cons]
      obtain ⟨c, hc, hle⟩ := ih (bboxUnion2 b b2)
      rcases hc with h | h
      · subst h
        rcases yCenter_union2_le b b2 with h2 | h2
        · exact ⟨b, Or.inl rfl, le_trans hle h2⟩
        · exact ⟨b2, Or.inr (by simp), le_trans hle h2⟩
      · exact ⟨c, Or.inr (by simp [h]), hle⟩

theorem foldl_union2_lower : ∀ (bs : List Bbox) (b : Bbox),
    ∃ c, (c = b ∨ c ∈ bs) ∧ yCenter c ≤ yCenter (bs.foldl bboxUnion2 b) := by
  intro bs
  induction bs with
  | nil => exact fun b => ⟨b, Or.inl rfl, le_refl _⟩
  | cons b2 bs2 ih =>
      intro b
      rw [List.foldl_cons]
      obtain ⟨c, hc, hle⟩ := ih (bboxUnion2 b b2)
      rcases hc with h | h
      · subst h
        rcases yCenter_union2_ge b b2 with h2 | h2
        · exact ⟨b, Or.inl rfl, le_trans h2 hle⟩
        · exact ⟨b2, Or.inr (by simp), le_trans h2 hle⟩
      · exact ⟨c, Or.inr (by simp [h]), hle⟩

theorem mergeBbox_center_le (l : List Bbox) (hne : l ≠ []) :
    ∃ c ∈ l, yCenter (mergeBbox l) ≤ yCenter c := by
  cases l with
  | nil => exact absurd rfl hne
  | cons b bs =>
      obtain ⟨c, hc, hle⟩ := foldl_union2_upper bs b
      rcases hc with h | h
      · exact ⟨b, by simp, by rw [← h] at hle ⊢; exact hle⟩
      · exact ⟨c, List.mem_cons_of_mem _ h, hle⟩

theorem mergeBbox_center_ge (l : List Bbox) (hne : l ≠ []) :
    ∃ c ∈ l, yCenter c ≤ yCenter (mergeBbox l) := by
  cases l with
  | nil => exact absurd rfl hne
  | cons b bs =>
      obtain ⟨c, hc, hle⟩ := foldl_union2_lower bs b
      rcases hc with h | h
      · exact ⟨b, by simp, by rw [← h] at hle ⊢; exact hle⟩
      · exact ⟨c, List.mem_cons_of_mem _ h, hle⟩

theorem mkLine_bbox (p j : Nat) (c : Cluster) :
    (mkLine p j c).bbox = mergeBbox ((c.words.mergeSort wordLeftLE).map (fun w => w.bbox)) := rfl

theorem mkLine_words (p j : Nat) (c : Cluster) :
    (mkLine p j c).words = c.words.mergeSort wordLeftLE := rfl

theorem mergeSort_ne_nil {le : OcrWord → OcrWord → Bool} (ws : List OcrWord) (hne : ws ≠ []) :
    ws.mergeSort le ≠ [] := by
  intro h
  apply hne
  have hl := congrArg List.length h
  rw [List.length_mergeSort] at hl
  exact List.length_eq_zero.1 hl

theorem mkLine_center_upper (p j : Nat) (c : Cluster) (hne : c.words ≠ []) :
    ∃ a ∈ wcs c, yCenter (mkLine p j c).bbox ≤ a := by
  have hmapne : (c.words.mergeSort wordLeftLE).map (fun w => w.bbox) ≠ [] := by
    simp [mergeSort_ne_nil c.words hne]
  obtain ⟨bb, hbb, hle⟩ := mergeBbox_center_le _ hmapne
  obtain ⟨w0, hw0, rfl⟩ := List.mem_map.1 hbb
  refine ⟨wordYCenter w0, ?_, ?_⟩
  · exact List.mem_map_of_mem _ (List.mem_mergeSort.1 hw0)
  · rw [mkLine_bbox]
    exact hle

theorem mkLine_center_lower (p j : Nat) (c : Cluster) (hne : c.words ≠ []) :
    ∃ a ∈ wcs c, a ≤ yCenter (mkLine p j c).bbox := by
  have hmapne : (c.words.mergeSort wordLeftLE).map (fun w => w.bbox) ≠ [] := by
    simp [mergeSort_ne_nil c.words hne]
  obtain ⟨bb, hbb, hle⟩ := mergeBbox_center_ge _ hmapne
  obtain ⟨w0, hw0, rfl⟩ := List.mem_map.1 hbb
  refine ⟨wordYCenter w0, ?_, ?_⟩
  · exact List.mem_map_of_mem _ (List.mem_mergeSort.1 hw0)
  · rw [mkLine_bbox]
    exact hle

theorem buildLines_mem (p : Nat) : ∀ (i : Nat) (cs : List Cluster) (l : OcrLine),
    l ∈ buildLines p i cs → ∃ j c, c ∈ cs ∧ l = mkLine p j c := by
  intro i cs
  induction cs generalizing i with
  | nil =>
      intro l hl
      simp [buildLines] at hl
  | cons c cs2 ih =>
      intro l hl
      rcases List.mem_cons.1 hl with h | h
      · exact ⟨i, c, by simp, h⟩
      · obtain ⟨j, d, hd, hld⟩ := ih (i + 1) l h
        exact ⟨j, d, List.mem_cons_of_mem _ hd, hld⟩

theorem buildLines_pairwise (p : Nat) (R : OcrLine → OcrLine → Prop)
    (S : Cluster → Cluster → Prop) :
    ∀ (i : Nat) (cs : List Cluster), cs.Pairwise S →
    (∀ c ∈ cs, ∀ d ∈ cs, ∀ j k, S c d → R (mkLine p j c) (mkLine p k d)) →
    (buildLines p i cs).Pairwise R := by
  intro i cs
  induction cs generalizing i with
  | nil =>
      intro _ _
      exact List.Pairwise.nil
  | cons c cs2 ih =>
      intro hS hR
      rcases List.pairwise_cons.1 hS with ⟨hhead, htail⟩
      refine List.Pairwise.cons ?_ (ih (i + 1) htail (fun c2 hc2 d hd j k hs =>
        hR c2 (List.mem_cons_of_mem _ hc2) d (List.mem_cons_of_mem _ hd) j k hs))
      intro l hl
      obtain ⟨j, d, hd, rfl⟩ := buildLines_mem p (i + 1) cs2 l hl
      exact hR c (by simp) d (List.mem_cons_of_mem _ hd) i j (hhead d hd)

/-- C2: every line produced by the clusterer has a bounding box equal to the
componentwise union of its member words' boxes, and (for a nonnegative
tolerance, as configured) the output lines are strictly ordered by ascending
vertical center. -/
theorem group_lines_spec (words : List OcrWord) (page_num : Nat) (tol : Int)
    (htol : 0 ≤ tol) :
    (∀ l ∈ group_lines words page_num tol,
      l.bbox = mergeBbox (l.words.map (fun w => w.bbox))) ∧
    (group_lines words page_num tol).Pairwise
      (fun l1 l2 => yCenter l1.bbox < yCenter l2.bbox) := by
  by_cases hw : words = []
  · constructor <;> simp [group_lines, hw]
  · have htolQ : (0 : Rat) ≤ ((tol : Int) : Rat) := by exact_mod_cast htol
    rw [show group_lines words page_num tol = buildLines page_num 1
        (((words.mergeSort wordSortLE).foldl (addToClusters ((tol : Int) : Rat))
          []).mergeSort clusterSortLE) from by simp [group_lines, hw]]
    have hpairwise_words : (words.mergeSort wordSortLE).Pairwise
        (fun a b => wordYCenter a ≤ wordYCenter b) := by
      refine (List.sorted_mergeSort wordSortLE_trans wordSortLE_total words).imp ?_
      intro a b h
      simp only [wordSortLE, decide_eq_true_eq] at h
      rcases h with h | ⟨h, _⟩
      · exact le_of_lt h
      · exact le_of_eq h
    have hinv := foldl_addToClusters_inv ((tol : Int) : Rat) htolQ
      (words.mergeSort wordSortLE) []
      ⟨by simp, by simp, by simp, by simp⟩ hpairwise_words
    obtain ⟨hGood, hPair, _, _⟩ := hinv
    have hcenters := pairwise_center_lt _ _ hGood hPair
    have hsorted_id : ((words.mergeSort wordSortLE).foldl
        (addToClusters ((tol : Int) : Rat)) []).mergeSort clusterSortLE =
        (words.mergeSort wordSortLE).foldl (addToClusters ((tol : Int) : Rat)) [] := by
      apply List.mergeSort_of_sorted
      refine hcenters.imp ?_
      intro c d h
      simp only [clusterSortLE, decide_eq_true_eq]
      exact le_of_lt h
    rw [hsorted_id]
    constructor
    · intro l hl
      obtain ⟨j, c, hc, rfl⟩ := buildLines_mem page_num 1 _ l hl
      rfl
    · apply buildLines_pairwise page_num _ SepC 1 _ hPair
      intro c hc d hd j k hs
      obtain ⟨hcne, _, _⟩ := hGood c hc
      obtain ⟨hdne, _, _⟩ := hGood d hd
      obtain ⟨a, haw, hale⟩ := mkLine_center_upper page_num j c hcne
      obtain ⟨b, hbw, hble⟩ := mkLine_center_lower page_num k d hdne
      have hab := hs a haw b hbw
      calc yCenter (mkLine page_num j c).bbox ≤ a := hale
        _ < b := hab
        _ ≤ yCenter (mkLine page_num k d).bbox := hble

/-- Witness for C2 on a one-word page with the default tolerance 14. -/
theorem group_lines_spec_w :
    (0 : Int) ≤ 14 ∧
    ((∀ l ∈ group_lines [OcrWord.mk "hi" ⟨0, 0, 10, 10⟩ 90] 1 14,
      l.bbox = mergeBbox (l.words.map (fun w => w.bbox))) ∧
    (group_lines [OcrWord.mk "hi" ⟨0, 0, 10, 10⟩ 90] 1 14).Pairwise
      (fun l1 l2 => yCenter l1.bbox < yCenter l2.bbox)) :=
  ⟨by decide, group_lines_spec [OcrWord.mk "hi" ⟨0, 0, 10, 10⟩ 90] 1 14 (by decide)⟩
